import Mathlib

/-!
Verification development for the health-dashboard core (`src/app.js`).

The file embeds, as executable Lean definitions, the parts of the
program the specification talks about:

* `HealthDataManager.indexMetrics` (the metric index),
* `HealthDataManager.getMetricData` (the time-series query, called
  `querySeries` in the specification),
* `HealthDataManager.getLatestValue` (`queryLatest`),
* `HealthDataManager.init` (the four-file load), and
* the time-range filter inside `DashboardUI.updateChart`.

Modelling conventions:

* JavaScript values that can sit in a record field are modelled by
  `JSVal`; an absent field (`undefined`) is `Option.none`.
* JavaScript numbers are modelled by `JSNum`: `NaN`, the two infinities,
  or an exact decimal `m * 10 ^ e`.  Every number this program produces
  comes from a JSON literal or from `parseFloat`, i.e. from a decimal
  literal, so finite values are modelled exactly; IEEE-754 rounding is
  not modelled.
* Code that can throw (`TypeError` from calling a string method on a
  non-string, `RangeError` from `toISOString` on an invalid date)
  returns `Except JSError _`.
* `Array.prototype.sort` is modelled as a stable insertion sort.  For a
  consistent comparison function this is exactly the output ECMAScript
  mandates (stable and sorted, which determines the order uniquely);
  for an inconsistent comparator (one that returns `NaN`, which
  `SortCompare` coerces to `+0`) ECMAScript leaves the order
  implementation-defined and the model fixes one conformant choice.
* `String.prototype.toLowerCase` is modelled on ASCII letters
  (`Char.toLower` per character); the data this program handles is
  ASCII.
* The local time zone (used by `Date#getMonth`/`setMonth` and when an
  ISO string carries no offset) is modelled as UTC.
-/

deriving instance DecidableEq for Except

/-- A JavaScript number: `NaN`, an infinity, or the exact decimal value
`m * 10 ^ e`. -/
inductive JSNum where
  | nan : JSNum
  | inf : JSNum
  | ninf : JSNum
  | fin (m : ℤ) (e : ℤ) : JSNum
deriving DecidableEq, Repr

/-- Numeric equality of `JSNum` (the `SameValueZero` comparison used by
`Map` keys): finite values compare by value, `NaN` equals `NaN`. -/
def JSNum.numEq : JSNum → JSNum → Bool
  | .nan, .nan => true
  | .inf, .inf => true
  | .ninf, .ninf => true
  | .fin m1 e1, .fin m2 e2 =>
      if e1 ≤ e2 then m1 == m2 * 10 ^ (e2 - e1).toNat
      else m1 * 10 ^ (e1 - e2).toNat == m2
  | _, _ => false

/-- A JSON-derived JavaScript value stored in a record field.  Nested
objects and arrays are collapsed into the single constructor `obj`
(truthy, not a string, string coercion `"[object Object]"`): no claim
distinguishes individual objects. -/
inductive JSVal where
  | str (s : String)
  | num (n : JSNum)
  | bool (b : Bool)
  | null
  | obj
deriving DecidableEq, Repr

/-- JavaScript truthiness of a value. -/
def JSVal.truthy : JSVal → Bool
  | .str s => s != ""
  | .num .nan => false
  | .num (.fin m _) => m != 0
  | .num _ => true
  | .bool b => b
  | .null => false
  | .obj => true

/-- Truthiness of a possibly-absent (`undefined`) value. -/
def optTruthy : Option JSVal → Bool
  | none => false
  | some v => v.truthy

/-- JavaScript `a || b` over possibly-absent values: `a` when truthy,
otherwise `b`. -/
def jsOr (a b : Option JSVal) : Option JSVal :=
  match a with
  | some v => if v.truthy then some v else b
  | none => b

/-- The `SameValueZero` equality used by `Map` keys, restricted to the
values of this model. -/
def jsValEq : JSVal → JSVal → Bool
  | .str a, .str b => a == b
  | .num a, .num b => a.numEq b
  | .bool a, .bool b => a == b
  | .null, .null => true
  | .obj, .obj => true
  | _, _ => false

/-- ASCII model of `String.prototype.toLowerCase`. -/
def lowerStr (s : String) : String := String.mk (s.data.map Char.toLower)

/-! ### `parseFloat` -/

/-- The whitespace skipped by `parseFloat` (ASCII fragment). -/
def jsSpace (c : Char) : Bool := c == ' ' || c == '\t' || c == '\n' || c == '\r'

/-- Numeric value of a list of decimal digits. -/
def digitsVal (cs : List Char) : ℕ := cs.foldl (fun a c => a * 10 + (c.toNat - 48)) 0

/-- Value of an exponent suffix after `e`/`E`; `0` when no digits follow
(in which case `parseFloat` ignores the exponent marker, keeping the
shorter valid literal). -/
def expSuffixVal (t : List Char) : ℤ :=
  match t with
  | '-' :: d => if (d.takeWhile Char.isDigit).length == 0 then 0
                else -(digitsVal (d.takeWhile Char.isDigit) : ℤ)
  | '+' :: d => if (d.takeWhile Char.isDigit).length == 0 then 0
                else (digitsVal (d.takeWhile Char.isDigit) : ℤ)
  | d => if (d.takeWhile Char.isDigit).length == 0 then 0
         else (digitsVal (d.takeWhile Char.isDigit) : ℤ)

/-- ECMAScript `parseFloat` on the characters of a string: the longest
prefix of the whitespace-trimmed input that is a `StrDecimalLiteral`;
`NaN` when there is none. -/
def parseFloatChars (cs0 : List Char) : JSNum :=
  let cs1 := cs0.dropWhile jsSpace
  let signed : Bool × List Char :=
    match cs1 with
    | '-' :: t => (true, t)
    | '+' :: t => (false, t)
    | _ => (false, cs1)
  let neg := signed.1
  let cs2 := signed.2
  if "Infinity".data.isPrefixOf cs2 then (if neg then .ninf else .inf)
  else
    let ip := cs2.takeWhile Char.isDigit
    let cs3 := cs2.drop ip.length
    let fracRest : List Char × List Char :=
      match cs3 with
      | '.' :: t => (t.takeWhile Char.isDigit, t.drop (t.takeWhile Char.isDigit).length)
      | _ => ([], cs3)
    let fp := fracRest.1
    let cs4 := fracRest.2
    if ip.length == 0 && fp.length == 0 then .nan
    else
      let mant : ℤ := ((digitsVal ip) * 10 ^ fp.length + digitsVal fp : ℕ)
      let ex : ℤ :=
        match cs4 with
        | 'e' :: t => expSuffixVal t
        | 'E' :: t => expSuffixVal t
        | _ => 0
      .fin (if neg then -mant else mant) (ex - fp.length)

/-- `parseFloat(v)`: the argument is coerced to a string first; of the
values in this model only strings and numbers coerce to a numeric
literal (numbers round-trip to themselves). -/
def jsParseFloat (v : JSVal) : JSNum :=
  match v with
  | .str s => parseFloatChars s.data
  | .num n => n
  | _ => .nan

/-- `isNaN` on a model number. -/
def jsIsNaN : JSNum → Bool
  | .nan => true
  | _ => false

/-! ### Dates: civil calendar arithmetic and the ISO parser -/

/-- A JavaScript `Date`: invalid, or a count of milliseconds since the
Unix epoch. -/
inductive JSDate where
  | invalid
  | valid (ms : ℤ)
deriving DecidableEq, Repr

/-- Gregorian leap-year test. -/
def isLeap (y : ℤ) : Bool := (y % 4 == 0 && y % 100 != 0) || y % 400 == 0

/-- Length of month `m` (1–12) of year `y`. -/
def daysInMonth (y m : ℤ) : ℤ :=
  if m == 2 then (if isLeap y then 29 else 28)
  else if m == 4 || m == 6 || m == 9 || m == 11 then 30 else 31

/-- Days since the Unix epoch of a proleptic-Gregorian civil date
(`days_from_civil` on unbounded integers). -/
def daysFromCivil (y m d : ℤ) : ℤ :=
  let y1 := y - (if m ≤ 2 then 1 else 0)
  let era := y1.fdiv 400
  let yoe := y1 - era * 400
  let mp := (m + 9) % 12
  let doy := (153 * mp + 2).fdiv 5 + d - 1
  let doe := yoe * 365 + yoe.fdiv 4 - yoe.fdiv 100 + doy
  era * 146097 + doe - 719468

/-- Civil date `(year, month, day)` of a day count since the Unix epoch
(`civil_from_days`). -/
def civilFromDays (z0 : ℤ) : ℤ × ℤ × ℤ :=
  let z := z0 + 719468
  let era := z.fdiv 146097
  let doe := z - era * 146097
  let yoe := (doe - doe.fdiv 1460 + doe.fdiv 36524 - doe.fdiv 146096).fdiv 365
  let y := yoe + era * 400
  let doy := doe - (365 * yoe + yoe.fdiv 4 - yoe.fdiv 100)
  let mp := (5 * doy + 2).fdiv 153
  let d := doy - (153 * mp + 2).fdiv 5 + 1
  let m := mp + (if mp < 10 then 3 else -9)
  (y + (if m ≤ 2 then 1 else 0), m, d)

/-- Milliseconds per day. -/
def dayMs : ℤ := 86400000

/-- The `TimeClip` range bound: `8.64e15` milliseconds. -/
def timeClipBound : ℤ := 8640000000000000

/-- `TimeClip`: a time value further than `8.64e15` ms from the epoch is
invalid. -/
def timeClip (z : ℤ) : JSDate :=
  if z.natAbs ≤ timeClipBound.natAbs then .valid z else .invalid

/-- Read exactly `n` decimal digits. -/
def takeDigits (n : ℕ) (cs : List Char) : Option (ℕ × List Char) :=
  let ds := cs.take n
  if ds.length == n && ds.all Char.isDigit then some (digitsVal ds, cs.drop n)
  else none

/-- Date component of an ISO string: `YYYY[-MM[-DD]]`. -/
def parseDatePart (cs : List Char) : Option (ℕ × ℕ × ℕ × List Char) :=
  match takeDigits 4 cs with
  | none => none
  | some (y, r1) =>
    match r1 with
    | '-' :: r2 =>
      match takeDigits 2 r2 with
      | none => none
      | some (mo, r3) =>
        match r3 with
        | '-' :: r4 =>
          match takeDigits 2 r4 with
          | none => none
          | some (d, r5) => some (y, mo, d, r5)
        | _ => some (y, mo, 1, r3)
    | _ => some (y, 1, 1, r1)

/-- Time component of an ISO string: optional `THH:mm[:ss[.sss]]`;
absent components default to zero. -/
def parseTimePart (cs : List Char) : Option (ℕ × ℕ × ℕ × ℕ × List Char) :=
  match cs with
  | 'T' :: r1 =>
    match takeDigits 2 r1 with
    | none => none
    | some (hh, r2) =>
      match r2 with
      | ':' :: r3 =>
        match takeDigits 2 r3 with
        | none => none
        | some (mi, r4) =>
          match r4 with
          | ':' :: r5 =>
            match takeDigits 2 r5 with
            | none => none
            | some (ss, r6) =>
              match r6 with
              | '.' :: r7 =>
                match takeDigits 3 r7 with
                | none => none
                | some (msc, r8) => some (hh, mi, ss, msc, r8)
              | _ => some (hh, mi, ss, 0, r6)
          | _ => some (hh, mi, 0, 0, r4)
      | _ => none
  | _ => some (0, 0, 0, 0, cs)

/-- Time-zone suffix: `Z`, `±HH:mm`, or nothing.  The offset is in
minutes; `none` in the result means no suffix (interpreted as UTC — the
modelled local zone). -/
def parseTZPart (cs : List Char) : Option (ℤ × List Char) :=
  match cs with
  | 'Z' :: r => some (0, r)
  | '+' :: r =>
    match takeDigits 2 r with
    | none => none
    | some (h, r1) =>
      match r1 with
      | ':' :: r2 =>
        match takeDigits 2 r2 with
        | none => none
        | some (m, r3) => some ((h * 60 + m : ℕ), r3)
      | _ => none
  | '-' :: r =>
    match takeDigits 2 r with
    | none => none
    | some (h, r1) =>
      match r1 with
      | ':' :: r2 =>
        match takeDigits 2 r2 with
        | none => none
        | some (m, r3) => some (-((h * 60 + m : ℕ) : ℤ), r3)
      | _ => none
  | _ => some (0, cs)

/-- The ECMAScript Date Time String Format (`YYYY-MM-DDTHH:mm:ss.sssZ`
and its prefixes), with calendar-valid component ranges; anything else
is an invalid date.  Expanded six-digit years are not modelled, and a
string with no offset is taken as UTC (the modelled local zone). -/
def isoParseChars (cs : List Char) : JSDate :=
  match parseDatePart cs with
  | none => .invalid
  | some (y, mo, d, r1) =>
    match parseTimePart r1 with
    | none => .invalid
    | some (hh, mi, ss, msc, r2) =>
      match parseTZPart r2 with
      | none => .invalid
      | some (offMin, r3) =>
        if r3.isEmpty &&
           1 ≤ mo && mo ≤ 12 && 1 ≤ d && (d : ℤ) ≤ daysInMonth y mo &&
           (hh < 24 || (hh == 24 && mi == 0 && ss == 0 && msc == 0)) &&
           mi ≤ 59 && ss ≤ 59 then
          timeClip ((daysFromCivil y mo d) * dayMs +
            (hh : ℤ) * 3600000 + (mi : ℤ) * 60000 + (ss : ℤ) * 1000 + (msc : ℤ) -
            offMin * 60000)
        else .invalid

/-- `new Date(v)` for a field value `v`: strings go through the ISO
parser, numbers through `TimeClip` (truncating toward zero), booleans
and `null` through `ToNumber`, objects fail to parse. -/
def jsDateOf (v : JSVal) : JSDate :=
  match v with
  | .str s => isoParseChars s.data
  | .num .nan => .invalid
  | .num .inf => .invalid
  | .num .ninf => .invalid
  | .num (.fin m e) =>
      if e ≥ 0 then timeClip (m * 10 ^ e.toNat)
      else
        let p : ℤ := 10 ^ (-e).toNat
        if m.natAbs ≤ (timeClipBound * p).natAbs then .valid (m.tdiv p) else .invalid
  | .bool b => .valid (if b then 1 else 0)
  | .null => .valid 0
  | .obj => .invalid

/-- Decimal digits of `n`, most significant first (`fuel`-structured so
that the kernel can evaluate it). -/
def natDigitsAux : ℕ → ℕ → List Char
  | 0, _ => []
  | _ + 1, 0 => []
  | f + 1, n => natDigitsAux f (n / 10) ++ [Char.ofNat (48 + n % 10)]

/-- Decimal rendering of a natural number. -/
def natToDec (n : ℕ) : String := if n == 0 then "0" else String.mk (natDigitsAux (n + 1) n)

/-- Decimal rendering of an integer. -/
def intToDec (z : ℤ) : String := if z < 0 then "-" ++ natToDec z.natAbs else natToDec z.natAbs

/-- `n` rendered with at least `w` digits (left zero padding). -/
def padDec (w : ℕ) (n : ℕ) : String :=
  let s := natToDec n
  String.mk (List.replicate (w - s.length) '0') ++ s

/-- `Date.prototype.toISOString` on a valid time value. -/
def jsToISOString (ms : ℤ) : String :=
  let day := ms.fdiv dayMs
  let tod := (ms - day * dayMs).toNat
  let ymd := civilFromDays day
  let y := ymd.1
  let mo := ymd.2.1
  let d := ymd.2.2
  let yearStr :=
    if 0 ≤ y && y ≤ 9999 then padDec 4 y.toNat
    else if y < 0 then "-" ++ padDec 6 y.natAbs else "+" ++ padDec 6 y.toNat
  yearStr ++ "-" ++ padDec 2 mo.toNat ++ "-" ++ padDec 2 d.toNat ++
    "T" ++ padDec 2 (tod / 3600000) ++ ":" ++ padDec 2 (tod % 3600000 / 60000) ++
    ":" ++ padDec 2 (tod % 60000 / 1000) ++ "." ++ padDec 3 (tod % 1000) ++ "Z"

/-! ### Raw records and partitions -/

/-- A raw observation record as read from one of the four JSON files.
Each field the program reads is present (`some`) or absent
(`none`, JavaScript `undefined`). -/
structure RawRecord where
  metric : Option JSVal := none
  Metric : Option JSVal := none
  timestamp : Option JSVal := none
  Timestamp : Option JSVal := none
  value : Option JSVal := none
  Value : Option JSVal := none
  unit : Option JSVal := none
  Unit : Option JSVal := none
  source_display : Option JSVal := none
  OriginalName : Option JSVal := none
deriving DecidableEq, Repr

/-- The four data partitions, in the iteration order of
`Object.values(this.data)`: labs, vitals, activity, sleep. -/
structure PartitionedData where
  labs : List RawRecord := []
  vitals : List RawRecord := []
  activity : List RawRecord := []
  sleep : List RawRecord := []
deriving DecidableEq, Repr

/-- The two exception kinds the embedded code can raise: `TypeError`
(string method on a non-string) and `RangeError` (`toISOString` on an
invalid date). -/
inductive JSError where
  | typeError
  | rangeError
deriving DecidableEq, Repr

/-- A chart point `{x: Date, y: number}`. -/
structure Point where
  x : JSDate
  y : JSNum
deriving DecidableEq, Repr

/-- A metric catalog entry built by `indexMetrics`. -/
structure MetricDescriptor where
  name : String
  label : JSVal
  unit : JSVal
  source : String
deriving DecidableEq, Repr

/-- The result shape of `getLatestValue`. -/
structure LatestValue where
  timestamp : String
  value : JSNum
  metric : String
  unit : JSVal
deriving DecidableEq, Repr

/-! ### Generic list machinery: JS `filter` with a throwing predicate,
`Map` insertion, stable sort -/

/-- `Array.prototype.filter` where the predicate may throw: elements are
tested left to right and the first exception aborts the whole call. -/
def filterME (p : α → Except JSError Bool) : List α → Except JSError (List α)
  | [] => .ok []
  | a :: l => do
      let b ← p a
      let rest ← filterME p l
      match b with
      | true => return a :: rest
      | false => return rest

/-- `Map.prototype.set` on an insertion-ordered association list with
`SameValueZero` key equality: an existing key keeps its position (and
its original key object), a new key is appended. -/
def mapSet (m : List (JSVal × JSNum)) (k : JSVal) (v : JSNum) : List (JSVal × JSNum) :=
  match m with
  | [] => [(k, v)]
  | (k0, v0) :: rest =>
      if jsValEq k0 k then (k0, v) :: rest
      else (k0, v0) :: mapSet rest k v

/-- Insert `a` into `l` before the first element `b` with `le a b`
(stable: an earlier element wins ties). -/
def orderedInsertB (le : α → α → Bool) (a : α) : List α → List α
  | [] => [a]
  | b :: l => if le a b then a :: b :: l else b :: orderedInsertB le a l

/-- Stable insertion sort: the model of `Array.prototype.sort`.  For a
consistent comparison function this is the unique stable sorted
permutation that ECMAScript mandates. -/
def insertionSortB (le : α → α → Bool) : List α → List α
  | [] => []
  | a :: l => orderedInsertB le a (insertionSortB le l)

/-- Stable insertion with a comparator that may throw. -/
def orderedInsertE (le : α → α → Except JSError Bool) (a : α) : List α → Except JSError (List α)
  | [] => .ok [a]
  | b :: l => do
      let c ← le a b
      match c with
      | true => return a :: b :: l
      | false => return b :: (← orderedInsertE le a l)

/-- Stable insertion sort with a comparator that may throw. -/
def insertionSortE (le : α → α → Except JSError Bool) : List α → Except JSError (List α)
  | [] => .ok []
  | a :: l => do orderedInsertE le a (← insertionSortE le l)

/-! ### `HealthDataManager` -/

namespace HealthDataManager

/-- The metric-match test of `getMetricData`'s per-partition filter:
`m && m.toLowerCase() === metricName.toLowerCase()` with
`m = d.metric || d.Metric`.  A truthy non-string `m` throws
`TypeError` from `.toLowerCase()`. -/
def metricTest (metricName : String) (r : RawRecord) : Except JSError Bool :=
  match jsOr r.metric r.Metric with
  | some v =>
      if v.truthy then
        match v with
        | .str s => .ok (lowerStr s == lowerStr metricName)
        | _ => .error .typeError
      else .ok false
  | none => .ok false

/-- One step of the `uniqueByTime` deduplication: a record writes
`parseFloat(value)` under its raw timestamp key when the timestamp is
truthy and the coalesced value is not `undefined`. -/
def dedupStep (m : List (JSVal × JSNum)) (r : RawRecord) : List (JSVal × JSNum) :=
  match jsOr r.timestamp r.Timestamp, jsOr r.value r.Value with
  | some ts, some v => if ts.truthy then mapSet m ts (jsParseFloat v) else m
  | _, _ => m

/-- `SortCompare` for the comparator `(a, b) => a.x - b.x`: a `NaN`
difference (either date invalid) is coerced to `+0`, i.e. a tie. -/
def pointLeB (a b : Point) : Bool :=
  match a.x, b.x with
  | .valid m, .valid n => decide (m ≤ n)
  | _, _ => true

/-- The `allEntries` accumulation of `getMetricData`: each partition is
filtered by the metric test (which can throw) and the survivors are
concatenated in partition order. -/
def matchedEntries (data : PartitionedData) (metricName : String) :
    Except JSError (List RawRecord) := do
  let fl ← filterME (metricTest metricName) data.labs
  let fv ← filterME (metricTest metricName) data.vitals
  let fa ← filterME (metricTest metricName) data.activity
  let fs ← filterME (metricTest metricName) data.sleep
  return fl ++ fv ++ fa ++ fs

/-- The pure tail of `getMetricData`: last-write-wins deduplication by
raw timestamp, conversion to `(Date, parseFloat)` points, removal of
`NaN` values, stable sort by date difference. -/
def seriesOf (allEntries : List RawRecord) : List Point :=
  let uniqueByTime := allEntries.foldl dedupStep []
  insertionSortB pointLeB
    ((uniqueByTime.map (fun kv => Point.mk (jsDateOf kv.1) kv.2)).filter
      (fun p => !(jsIsNaN p.y)))

/-- `HealthDataManager.getMetricData` (the specification's
`querySeries`). -/
def getMetricData (data : PartitionedData) (metricName : String) :
    Except JSError (List Point) := do
  let allEntries ← matchedEntries data metricName
  return seriesOf allEntries

/-- The unit lookup of `getLatestValue`:
`this.metrics.find(m => m.name.toLowerCase() === metricName.toLowerCase())?.unit || ''`. -/
def unitLookup (metrics : List MetricDescriptor) (metricName : String) : JSVal :=
  match metrics.find? (fun m => lowerStr m.name == lowerStr metricName) with
  | some m => if m.unit.truthy then m.unit else .str ""
  | none => .str ""

/-- The tail of `getLatestValue` on an already-computed series: `null`
on an empty series, otherwise the last point rendered with
`toISOString` (which throws `RangeError` on an invalid date) and the
case-insensitive unit lookup. -/
def latestOf (metrics : List MetricDescriptor) (metricName : String)
    (pts : List Point) : Except JSError (Option LatestValue) :=
  match pts.getLast? with
  | none => .ok none
  | some latest =>
    match latest.x with
    | .invalid => .error .rangeError
    | .valid ms =>
        .ok (some ⟨jsToISOString ms, latest.y, metricName, unitLookup metrics metricName⟩)

/-- `HealthDataManager.getLatestValue` (the specification's
`queryLatest`). -/
def getLatestValue (data : PartitionedData) (metrics : List MetricDescriptor)
    (metricName : String) : Except JSError (Option LatestValue) := do
  let pts ← getMetricData data metricName
  latestOf metrics metricName pts

/-- All records tagged with their partition's source label, in
iteration order. -/
def sourceTagged (data : PartitionedData) : List (String × RawRecord) :=
  data.labs.map (fun r => ("Labs", r)) ++ data.vitals.map (fun r => ("Vitals", r)) ++
  data.activity.map (fun r => ("Activity", r)) ++ data.sleep.map (fun r => ("Sleep", r))

/-- The descriptor materialised on the first occurrence of a key:
label `source_display || OriginalName || rawMetric`, unit
`unit || Unit || ''`, the partition's source tag. -/
def mkDescriptor (tag : String) (r : RawRecord) (rawMetric : String) : MetricDescriptor :=
  { name := lowerStr rawMetric
  , label := (jsOr r.source_display (jsOr r.OriginalName (some (.str rawMetric)))).getD
      (.str rawMetric)
  , unit := (jsOr r.unit (jsOr r.Unit (some (.str "")))).getD (.str "")
  , source := tag }

/-- The metric-field read of `indexMetrics`:
`(entry.metric || entry.Metric || '').toLowerCase()`.  A truthy string
is returned (in its raw casing) for lower-casing at the use site, a
falsy or absent field yields the empty key (`none` here), and a truthy
non-string throws `TypeError` from `.toLowerCase()`. -/
def metricStrE (r : RawRecord) : Except JSError (Option String) :=
  match jsOr r.metric r.Metric with
  | some v =>
      if v.truthy then
        match v with
        | .str s => .ok (some s)
        | _ => .error .typeError
      else .ok none
  | none => .ok none

/-- The first-write-wins accumulation of `indexMetrics`: an empty key is
skipped, a known key is ignored, the first record with a new key
materialises its descriptor. -/
def indexFold : List (String × RawRecord) → List MetricDescriptor →
    Except JSError (List MetricDescriptor)
  | [], acc => .ok acc
  | (tag, r) :: rest, acc =>
      match metricStrE r with
      | .error e => .error e
      | .ok none => indexFold rest acc
      | .ok (some s) =>
          let k := lowerStr s
          if acc.any (fun d => d.name == k) then indexFold rest acc
          else indexFold rest (acc ++ [mkDescriptor tag r s])

/-- The lower-cased key of a record, when the record carries one (a
truthy string metric field). -/
def recordKey (r : RawRecord) : Option String :=
  match metricStrE r with
  | .ok (some s) => some (lowerStr s)
  | _ => none

/-- String coercion of a value, as applied by `localeCompare` to its
argument.  JavaScript's shortest-round-trip formatting of doubles is
simplified to mantissa/exponent rendering; this only affects the
ordering of descriptors whose labels are non-string numbers, which no
claim exercises. -/
def jsNumToStr : JSNum → String
  | .nan => "NaN"
  | .inf => "Infinity"
  | .ninf => "-Infinity"
  | .fin m e => if e == 0 then intToDec m else intToDec m ++ "e" ++ intToDec e

/-- `ToString` on a model value. -/
def jsToStr : JSVal → String
  | .str s => s
  | .num n => jsNumToStr n
  | .bool true => "true"
  | .bool false => "false"
  | .null => "null"
  | .obj => "[object Object]"

/-- The sort comparator `(a, b) => a.label.localeCompare(b.label)` as a
boolean `SortCompare`, parameterised by the environment's locale
comparison `lcmp`: throws `TypeError` when the receiver label is not a
string, coerces the argument label with `ToString`. -/
def labelLe (lcmp : String → String → ℤ) (a b : MetricDescriptor) : Except JSError Bool :=
  match a.label with
  | .str sa => .ok (decide (lcmp sa (jsToStr b.label) ≤ 0))
  | _ => .error .typeError

/-- `HealthDataManager.indexMetrics`: first-write-wins catalog build
over all partitions followed by a locale-aware sort by label.  `lcmp`
is the environment's `localeCompare`. -/
def indexMetrics (data : PartitionedData) (lcmp : String → String → ℤ) :
    Except JSError (List MetricDescriptor) := do
  let descs ← indexFold (sourceTagged data) []
  insertionSortE (labelLe lcmp) descs

/-- The manager's mutable state: the four partitions and the metric
index. -/
structure ManagerState where
  data : PartitionedData
  metrics : List MetricDescriptor
deriving DecidableEq, Repr

/-- `HealthDataManager.init`: the four loads are awaited in order
(labs, vitals, activity, sleep) and each successful load is written
into `this.data` before the next is attempted; the first failure is
caught and reported as `false`, then `indexMetrics` runs (whose own
exception is also caught as `false`).  Each load argument is the
outcome of `fetch` + `response.json()` for one file. -/
def init (st : ManagerState) (lcmp : String → String → ℤ)
    (labsLoad vitalsLoad activityLoad sleepLoad : Except Unit (List RawRecord)) :
    Bool × ManagerState :=
  match labsLoad with
  | .error _ => (false, st)
  | .ok ls =>
    let st1 : ManagerState := { st with data := { st.data with labs := ls } }
    match vitalsLoad with
    | .error _ => (false, st1)
    | .ok vs =>
      let st2 : ManagerState := { st1 with data := { st1.data with vitals := vs } }
      match activityLoad with
      | .error _ => (false, st2)
      | .ok acts =>
        let st3 : ManagerState := { st2 with data := { st2.data with activity := acts } }
        match sleepLoad with
        | .error _ => (false, st3)
        | .ok sl =>
          let st4 : ManagerState := { st3 with data := { st3.data with sleep := sl } }
          match indexMetrics st4.data lcmp with
          | .error _ => (false, st4)
          | .ok ms => (true, { st4 with metrics := ms })

end HealthDataManager

/-! ### `DashboardUI.updateChart`: the time-range filter -/

/-- `Date.prototype.getMonth` (0-based month, modelled local zone UTC).
On an invalid date the real method returns `NaN`; the model returns `0`,
which is harmless because `jsSetMonth` of an invalid date is invalid
whatever its argument, and the code only ever feeds `getMonth` of the
same date into `setMonth`. -/
def jsGetMonth0 (d : JSDate) : ℤ :=
  match d with
  | .invalid => 0
  | .valid ms => (civilFromDays (ms.fdiv dayMs)).2.1 - 1

/-- `Date.prototype.setMonth` (modelled local zone UTC): `MakeDay` with
the new month value, keeping the day-of-month and time of day.  A
day-of-month past the end of the target month rolls forward into the
following month (no clamping). -/
def jsSetMonth (d : JSDate) (mv : ℤ) : JSDate :=
  match d with
  | .invalid => .invalid
  | .valid ms =>
      let day := ms.fdiv dayMs
      let tod := ms - day * dayMs
      let ymd := civilFromDays day
      let ym := ymd.1 + mv.fdiv 12
      let mn := mv.emod 12
      timeClip ((daysFromCivil ym (mn + 1) 1 + (ymd.2.2 - 1)) * dayMs + tod)

/-- The comparison `d.x >= cutoff` on dates: `false` whenever either
side is invalid (`NaN` comparisons are false). -/
def dateGeB (x cutoff : JSDate) : Bool :=
  match x, cutoff with
  | .valid a, .valid b => decide (a ≥ b)
  | _, _ => false

namespace DashboardUI

/-- The month count of a range tag:
`range === '1M' ? 1 : (range === '6M' ? 6 : 12)`. -/
def monthsOfRange (range : String) : ℤ :=
  if range == "1M" then 1 else if range == "6M" then 6 else 12

/-- The time-range filter inside `DashboardUI.updateChart`: any tag
other than `ALL` filters the series to points at or after
`now` minus the tag's month count (via `setMonth`); `now` is the
wall-clock `new Date()` at the moment of the call. -/
def updateChartFilter (series : List Point) (range : String) (now : JSDate) : List Point :=
  if range != "ALL" then
    let cutoff := jsSetMonth now (jsGetMonth0 now - monthsOfRange range)
    series.filter (fun p => dateGeB p.x cutoff)
  else series

end DashboardUI

/-! ### Lemmas: the sort model -/

theorem orderedInsertB_perm (le : α → α → Bool) (a : α) (l : List α) :
    List.Perm (orderedInsertB le a l) (a :: l) := by
  induction l with
  | nil => simp [orderedInsertB]
  | cons b t ih =>
    simp only [orderedInsertB]
    split
    · exact List.Perm.refl _
    · exact (ih.cons b).trans (List.Perm.swap a b t)

theorem insertionSortB_perm (le : α → α → Bool) (l : List α) :
    List.Perm (insertionSortB le l) l := by
  induction l with
  | nil => simp [insertionSortB]
  | cons a t ih => exact (orderedInsertB_perm le a _).trans (ih.cons a)

theorem orderedInsertB_pairwise {le : α → α → Bool}
    (htot : ∀ a b, le a b = true ∨ le b a = true)
    (htrans : ∀ a b c, le a b = true → le b c = true → le a c = true)
    (a : α) {l : List α} (hl : List.Pairwise (fun x y => le x y = true) l) :
    List.Pairwise (fun x y => le x y = true) (orderedInsertB le a l) := by
  induction l with
  | nil => simp [orderedInsertB]
  | cons b t ih =>
    obtain ⟨hb, ht⟩ := List.pairwise_cons.mp hl
    simp only [orderedInsertB]
    by_cases h : le a b = true
    · rw [if_pos h]
      refine List.Pairwise.cons ?_ (List.Pairwise.cons hb ht)
      intro y hy
      rcases List.mem_cons.mp hy with hyb | hyt
      · exact hyb ▸ h
      · exact htrans a b y h (hb y hyt)
    · rw [if_neg h]
      refine List.Pairwise.cons ?_ (ih ht)
      intro y hy
      have hy2 : y ∈ a :: t := (orderedInsertB_perm le a t).mem_iff.mp hy
      rcases List.mem_cons.mp hy2 with hya | hyt
      · subst hya
        rcases htot y b with h1 | h1
        · exact absurd h1 h
        · exact h1
      · exact hb y hyt

theorem insertionSortB_sorted {le : α → α → Bool}
    (htot : ∀ a b, le a b = true ∨ le b a = true)
    (htrans : ∀ a b c, le a b = true → le b c = true → le a c = true)
    (l : List α) :
    List.Pairwise (fun x y => le x y = true) (insertionSortB le l) := by
  induction l with
  | nil => simp [insertionSortB]
  | cons a t ih => exact orderedInsertB_pairwise htot htrans a ih

theorem orderedInsertB_congr {le1 le2 : α → α → Bool} (a : α) {l : List α}
    (h : ∀ b ∈ l, le1 a b = le2 a b) :
    orderedInsertB le1 a l = orderedInsertB le2 a l := by
  induction l with
  | nil => rfl
  | cons b t ih =>
    simp only [orderedInsertB]
    rw [h b (List.mem_cons_self b t)]
    split
    · rfl
    · rw [ih (fun c hc => h c (List.mem_cons_of_mem b hc))]

theorem insertionSortB_congr {le1 le2 : α → α → Bool} {l : List α}
    (h : ∀ a ∈ l, ∀ b ∈ l, le1 a b = le2 a b) :
    insertionSortB le1 l = insertionSortB le2 l := by
  induction l with
  | nil => rfl
  | cons a t ih =>
    simp only [insertionSortB]
    have hrec : insertionSortB le1 t = insertionSortB le2 t :=
      ih (fun x hx y hy =>
        h x (List.mem_cons_of_mem a hx) y (List.mem_cons_of_mem a hy))
    rw [hrec]
    refine orderedInsertB_congr a (fun b hb => ?_)
    have hbt : b ∈ t := (insertionSortB_perm le2 t).mem_iff.mp hb
    exact h a (List.mem_cons_self a t) b (List.mem_cons_of_mem a hbt)

theorem orderedInsertE_ok_perm {le : α → α → Except JSError Bool} {a : α} :
    ∀ {l l' : List α}, orderedInsertE le a l = .ok l' → List.Perm l' (a :: l) := by
  intro l
  induction l with
  | nil =>
    intro l' h
    simp only [orderedInsertE] at h
    cases h
    exact List.Perm.refl _
  | cons b t ih =>
    intro l' h
    simp only [orderedInsertE] at h
    cases hle : le a b with
    | error e => rw [hle] at h; exact absurd h (by simp [Bind.bind, Except.bind])
    | ok bb =>
      rw [hle] at h
      cases bb with
      | true =>
        simp only [Bind.bind, Except.bind, pure, Except.pure, Except.ok.injEq] at h
        subst h
        exact List.Perm.refl _
      | false =>
        simp only [Bind.bind, Except.bind] at h
        cases hrec : orderedInsertE le a t with
        | error e => rw [hrec] at h; exact absurd h (by simp)
        | ok u =>
          rw [hrec] at h
          simp only [pure, Except.pure, Except.ok.injEq] at h
          subst h
          exact ((ih hrec).cons b).trans (List.Perm.swap a b t)

theorem insertionSortE_ok_perm {le : α → α → Except JSError Bool} :
    ∀ {l l' : List α}, insertionSortE le l = .ok l' → List.Perm l' l := by
  intro l
  induction l with
  | nil =>
    intro l' h
    simp only [insertionSortE] at h
    cases h
    exact List.Perm.refl _
  | cons a t ih =>
    intro l' h
    simp only [insertionSortE] at h
    cases hrec : insertionSortE le t with
    | error e => rw [hrec] at h; exact absurd h (by simp [Bind.bind, Except.bind])
    | ok u =>
      rw [hrec] at h
      simp only [Bind.bind, Except.bind] at h
      exact (orderedInsertE_ok_perm h).trans ((ih hrec).cons a)

theorem orderedInsertE_eq_pure {le : α → α → Except JSError Bool} {leB : α → α → Bool}
    {a : α} : ∀ {l : List α}, (∀ b ∈ l, le a b = .ok (leB a b)) →
    orderedInsertE le a l = .ok (orderedInsertB leB a l) := by
  intro l
  induction l with
  | nil => intro _; rfl
  | cons b t ih =>
    intro h
    simp only [orderedInsertE, orderedInsertB]
    rw [h b (List.mem_cons_self b t)]
    cases hb : leB a b with
    | true =>
      simp only [Bind.bind, Except.bind, if_pos rfl]
      simp only [if_true]
      rfl
    | false =>
      simp only [Bind.bind, Except.bind]
      rw [ih (fun c hc => h c (List.mem_cons_of_mem b hc))]
      rw [if_neg (by simp : ¬ false = true)]
      rfl

theorem insertionSortE_eq_pure {le : α → α → Except JSError Bool} {leB : α → α → Bool} :
    ∀ {l : List α}, (∀ a ∈ l, ∀ b, le a b = .ok (leB a b)) →
    insertionSortE le l = .ok (insertionSortB leB l) := by
  intro l
  induction l with
  | nil => intro _; rfl
  | cons a t ih =>
    intro hag
    simp only [insertionSortE, insertionSortB]
    rw [ih (fun x hx b => hag x (List.mem_cons_of_mem a hx) b)]
    simp only [Bind.bind, Except.bind]
    exact orderedInsertE_eq_pure (fun b _ => hag a (List.mem_cons_self a t) b)

/-! ### Lemmas: the deduplicating map -/

/-- The keys of the association-list map, in insertion order. -/
def keysOf (m : List (JSVal × JSNum)) : List JSVal := m.map Prod.fst

/-- `Map.prototype.get` on the association-list map. -/
def lookupJS (m : List (JSVal × JSNum)) (k : JSVal) : Option JSNum :=
  match m with
  | [] => none
  | (k0, v) :: rest => if jsValEq k0 k then some v else lookupJS rest k

/-- Left-biased choice on options. -/
def optOr : Option α → Option α → Option α
  | some a, _ => some a
  | none, b => b

theorem jsValEq_rfl (v : JSVal) : jsValEq v v = true := by
  cases v with
  | str s => simp [jsValEq]
  | num n =>
    cases n with
    | nan => rfl
    | inf => rfl
    | ninf => rfl
    | fin m e => simp [jsValEq, JSNum.numEq]
  | bool b => simp [jsValEq]
  | null => rfl
  | obj => rfl

theorem jsValEq_str_right {x : JSVal} {a : String} :
    jsValEq x (.str a) = true ↔ x = .str a := by
  cases x <;> simp [jsValEq]

theorem jsValEq_str_left {x : JSVal} {a : String} :
    jsValEq (.str a) x = true ↔ x = .str a := by
  cases x with
  | str b =>
    simp only [jsValEq, beq_iff_eq, JSVal.str.injEq]
    exact eq_comm
  | num n => simp [jsValEq]
  | bool b => simp [jsValEq]
  | null => simp [jsValEq]
  | obj => simp [jsValEq]

theorem getLast?_cons_some (x : α) (xs : List α) : ∃ y, (x :: xs).getLast? = some y := by
  induction xs generalizing x with
  | nil => exact ⟨x, rfl⟩
  | cons b t ih => rw [List.getLast?_cons_cons]; exact ih b

theorem lookupJS_mapSet_self (m : List (JSVal × JSNum)) (t : String) (v : JSNum) :
    lookupJS (mapSet m (.str t) v) (.str t) = some v := by
  induction m with
  | nil => simp [mapSet, lookupJS, jsValEq_rfl]
  | cons kv rest ih =>
    obtain ⟨k0, v0⟩ := kv
    simp only [mapSet]
    by_cases h : jsValEq k0 (JSVal.str t) = true
    · rw [if_pos h]; simp [lookupJS, h]
    · rw [if_neg h]
      simp only [lookupJS]
      rw [if_neg h]
      exact ih

theorem lookupJS_mapSet_other {k : JSVal} {t : String}
    (hne : jsValEq k (.str t) = false) (m : List (JSVal × JSNum)) (v : JSNum) :
    lookupJS (mapSet m k v) (.str t) = lookupJS m (.str t) := by
  induction m with
  | nil => simp [mapSet, lookupJS, hne]
  | cons kv rest ih =>
    obtain ⟨k0, v0⟩ := kv
    simp only [mapSet]
    by_cases h : jsValEq k0 k = true
    · rw [if_pos h]
      have hk0 : jsValEq k0 (JSVal.str t) = false := by
        by_contra hc
        have h1 : k0 = JSVal.str t := jsValEq_str_right.mp (by
          cases he : jsValEq k0 (JSVal.str t)
          · exact absurd he hc
          · rfl)
        subst h1
        have h2 : k = JSVal.str t := jsValEq_str_left.mp h
        rw [h2, jsValEq_rfl] at hne
        simp at hne
      simp [lookupJS, hk0]
    · rw [if_neg h]
      simp only [lookupJS]
      by_cases h2 : jsValEq k0 (JSVal.str t) = true
      · rw [if_pos h2, if_pos h2]
      · rw [if_neg h2, if_neg h2]
        exact ih

theorem lookupJS_mem {m : List (JSVal × JSNum)} {t : String} {v : JSNum}
    (h : lookupJS m (.str t) = some v) : (JSVal.str t, v) ∈ m := by
  induction m with
  | nil => simp [lookupJS] at h
  | cons kv rest ih =>
    obtain ⟨k0, v0⟩ := kv
    simp only [lookupJS] at h
    by_cases hk : jsValEq k0 (JSVal.str t) = true
    · rw [if_pos hk] at h
      have : k0 = JSVal.str t := jsValEq_str_right.mp hk
      subst this
      cases h
      exact List.mem_cons_self _ _
    · rw [if_neg hk] at h
      exact List.mem_cons_of_mem _ (ih h)

namespace HealthDataManager

/-- A record writes an entry under key `t` in the deduplication pass:
its coalesced timestamp is exactly the (truthy) string `t` and its
coalesced value is defined. -/
def writesTs (t : String) (r : RawRecord) : Bool :=
  match jsOr r.timestamp r.Timestamp, jsOr r.value r.Value with
  | some ts, some _ => ts.truthy && (ts == JSVal.str t)
  | _, _ => false

/-- The number such a record writes: `parseFloat` of its coalesced
value. -/
def writtenVal (r : RawRecord) : JSNum := jsParseFloat ((jsOr r.value r.Value).getD .null)

theorem dedupStep_lookup_of_not_writes {t : String} {r : RawRecord}
    (h : writesTs t r = false) (acc : List (JSVal × JSNum)) :
    lookupJS (dedupStep acc r) (.str t) = lookupJS acc (.str t) := by
  cases hts : jsOr r.timestamp r.Timestamp with
  | none => cases hv : jsOr r.value r.Value <;> simp [dedupStep, hts, hv]
  | some ts =>
    cases hv : jsOr r.value r.Value with
    | none => simp [dedupStep, hts, hv]
    | some v =>
      simp only [dedupStep, hts, hv]
      by_cases htr : ts.truthy = true
      · rw [if_pos htr]
        refine lookupJS_mapSet_other ?_ acc (jsParseFloat v)
        simp only [writesTs, hts, hv, htr, Bool.true_and] at h
        cases he : jsValEq ts (JSVal.str t)
        · rfl
        · have : ts = JSVal.str t := jsValEq_str_right.mp he
          subst this
          simp at h
      · rw [if_neg htr]

theorem dedupStep_lookup_of_writes {t : String} {r : RawRecord}
    (h : writesTs t r = true) (acc : List (JSVal × JSNum)) :
    lookupJS (dedupStep acc r) (.str t) = some (writtenVal r) := by
  unfold writesTs at h
  cases hts : jsOr r.timestamp r.Timestamp with
  | none => rw [hts] at h; cases hv : jsOr r.value r.Value <;> rw [hv] at h <;> simp at h
  | some ts =>
    cases hv : jsOr r.value r.Value with
    | none => rw [hts, hv] at h; simp at h
    | some v =>
      rw [hts, hv] at h
      simp only [Bool.and_eq_true, beq_iff_eq] at h
      obtain ⟨htr, hteq⟩ := h
      subst hteq
      simp only [dedupStep, writtenVal, hts, hv]
      rw [if_pos htr]
      simp only [Option.getD_some]
      exact lookupJS_mapSet_self acc t (jsParseFloat v)

theorem dedup_lookup (t : String) :
    ∀ (rs : List RawRecord) (acc : List (JSVal × JSNum)),
    lookupJS (List.foldl dedupStep acc rs) (JSVal.str t) =
      optOr (((rs.filter (writesTs t)).getLast?).map writtenVal)
        (lookupJS acc (JSVal.str t)) := by
  intro rs
  induction rs with
  | nil => intro acc; simp [optOr]
  | cons r rest ih =>
    intro acc
    simp only [List.foldl_cons]
    rw [ih (dedupStep acc r)]
    by_cases hw : writesTs t r = true
    · have hfc : (r :: rest).filter (writesTs t) = r :: rest.filter (writesTs t) := by
        simp [List.filter_cons, hw]
      rw [hfc]
      cases hrest : rest.filter (writesTs t) with
      | nil =>
        rw [dedupStep_lookup_of_writes hw acc]
        simp [optOr]
      | cons x xs =>
        rw [List.getLast?_cons_cons]
        obtain ⟨y, hy⟩ := getLast?_cons_some x xs
        rw [hy]
        simp [optOr]
    · have hw2 : writesTs t r = false := by
        cases hwe : writesTs t r
        · rfl
        · exact absurd hwe hw
      have hfc : (r :: rest).filter (writesTs t) = rest.filter (writesTs t) := by
        simp [List.filter_cons, hw2]
      rw [hfc, dedupStep_lookup_of_not_writes hw2 acc]

end HealthDataManager

/-! ### Lemmas: map keys and the series pipeline -/

theorem keysOf_mapSet (m : List (JSVal × JSNum)) (k : JSVal) (v : JSNum) :
    keysOf (mapSet m k v) = keysOf m ∨
    (keysOf (mapSet m k v) = keysOf m ++ [k] ∧ ∀ k0 ∈ keysOf m, jsValEq k0 k = false) := by
  induction m with
  | nil =>
    right
    refine ⟨rfl, ?_⟩
    simp [keysOf]
  | cons kv rest ih =>
    obtain ⟨k0, v0⟩ := kv
    cases h : jsValEq k0 k with
    | true =>
      left
      simp [mapSet, h, keysOf]
    | false =>
      have hif : mapSet ((k0, v0) :: rest) k v = (k0, v0) :: mapSet rest k v := by
        simp [mapSet, h]
      have hkeys : keysOf ((k0, v0) :: mapSet rest k v) = k0 :: keysOf (mapSet rest k v) := rfl
      rcases ih with h1 | ⟨h1, h2⟩
      · left
        rw [hif, hkeys, h1]
        rfl
      · right
        constructor
        · rw [hif, hkeys, h1]
          rfl
        · intro k1 hk1
          rcases List.mem_cons.mp hk1 with he | hm
          · exact he ▸ h
          · exact h2 k1 hm

namespace HealthDataManager

/-- The candidate dedup key a record produces, if any: its coalesced
truthy timestamp, provided the coalesced value is defined. -/
def tsCandidateOf (r : RawRecord) : Option JSVal :=
  match jsOr r.timestamp r.Timestamp, jsOr r.value r.Value with
  | some ts, some _ => if ts.truthy then some ts else none
  | _, _ => none

/-- All candidate dedup keys of a record list, with multiplicity. -/
def tsCandidates (rs : List RawRecord) : List JSVal := rs.filterMap tsCandidateOf

theorem keysOf_dedupStep (acc : List (JSVal × JSNum)) (r : RawRecord) :
    keysOf (dedupStep acc r) = keysOf acc ∨
    (∃ ts, tsCandidateOf r = some ts ∧ keysOf (dedupStep acc r) = keysOf acc ++ [ts] ∧
      ∀ k0 ∈ keysOf acc, jsValEq k0 ts = false) := by
  cases hts : jsOr r.timestamp r.Timestamp with
  | none =>
    left
    cases hv : jsOr r.value r.Value <;> simp [dedupStep, hts, hv]
  | some ts =>
    cases hv : jsOr r.value r.Value with
    | none => left; simp [dedupStep, hts, hv]
    | some v =>
      by_cases htr : ts.truthy = true
      · simp only [dedupStep, hts, hv, if_pos htr]
        rcases keysOf_mapSet acc ts (jsParseFloat v) with h1 | ⟨h1, h2⟩
        · left; exact h1
        · right
          exact ⟨ts, by simp [tsCandidateOf, hts, hv, htr], h1, h2⟩
      · left
        simp [dedupStep, hts, hv, if_neg htr]

theorem nodup_keysOf_dedupStep {acc : List (JSVal × JSNum)} (r : RawRecord)
    (h : (keysOf acc).Nodup) : (keysOf (dedupStep acc r)).Nodup := by
  rcases keysOf_dedupStep acc r with h1 | ⟨ts, _, h1, h2⟩
  · rw [h1]; exact h
  · rw [h1]
    rw [List.nodup_append]
    refine ⟨h, List.nodup_singleton ts, ?_⟩
    intro k hk hk2
    have : k = ts := by simpa using hk2
    subst this
    have := h2 k hk
    rw [jsValEq_rfl] at this
    simp at this

theorem dedup_keys (rs : List RawRecord) :
    ∀ acc : List (JSVal × JSNum), (keysOf acc).Nodup →
      (keysOf (List.foldl dedupStep acc rs)).Nodup ∧
      ∀ k ∈ keysOf (List.foldl dedupStep acc rs),
        k ∈ keysOf acc ∨ k ∈ tsCandidates rs := by
  induction rs with
  | nil =>
    intro acc h
    exact ⟨h, fun k hk => Or.inl hk⟩
  | cons r rest ih =>
    intro acc hacc
    simp only [List.foldl_cons]
    obtain ⟨hnd, hprov⟩ := ih (dedupStep acc r) (nodup_keysOf_dedupStep r hacc)
    refine ⟨hnd, ?_⟩
    intro k hk
    have hcands : tsCandidates (r :: rest) =
        match tsCandidateOf r with
        | some ts => ts :: tsCandidates rest
        | none => tsCandidates rest := by
      simp [tsCandidates, List.filterMap_cons]
      cases tsCandidateOf r <;> simp
    rcases hprov k hk with hk1 | hk2
    · rcases keysOf_dedupStep acc r with h1 | ⟨ts, hts, h1, _⟩
      · rw [h1] at hk1; exact Or.inl hk1
      · rw [h1] at hk1
        rcases List.mem_append.mp hk1 with hmem | hmem
        · exact Or.inl hmem
        · right
          rw [hcands, hts]
          have : k = ts := by simpa using hmem
          subst this
          exact List.mem_cons_self _ _
    · right
      rw [hcands]
      cases tsCandidateOf r
      · exact hk2
      · exact List.mem_cons_of_mem _ hk2

theorem seriesOf_length_le (es : List RawRecord) :
    (seriesOf es).length ≤ ((tsCandidates es).dedup).length := by
  unfold seriesOf
  rw [(insertionSortB_perm pointLeB _).length_eq]
  have h1 : ((((es.foldl dedupStep []).map
      (fun kv => Point.mk (jsDateOf kv.1) kv.2)).filter
      (fun p => !(jsIsNaN p.y)))).length ≤ (keysOf (es.foldl dedupStep [])).length := by
    calc ((((es.foldl dedupStep []).map
          (fun kv => Point.mk (jsDateOf kv.1) kv.2)).filter
          (fun p => !(jsIsNaN p.y)))).length
        ≤ (((es.foldl dedupStep []).map
            (fun kv => Point.mk (jsDateOf kv.1) kv.2))).length :=
          List.length_filter_le _ _
      _ = (es.foldl dedupStep []).length := List.length_map _ _
      _ = (keysOf (es.foldl dedupStep [])).length := (List.length_map _ _).symm
  refine le_trans h1 ?_
  obtain ⟨hnd, hprov⟩ := dedup_keys es [] (by simp [keysOf])
  have hsub : keysOf (es.foldl dedupStep []) ⊆ (tsCandidates es).dedup := by
    intro k hk
    rcases hprov k hk with h | h
    · simp [keysOf] at h
    · exact List.mem_dedup.mpr h
  exact (hnd.subperm hsub).length_le

end HealthDataManager

/-! ### Lemmas: the throwing filter and `matchedEntries` -/

/-- Whether an `Except` computation succeeded. -/
def exceptIsOk : Except ε α → Bool
  | .ok _ => true
  | .error _ => false

theorem filterME_ok_eq {p : α → Except JSError Bool} :
    ∀ {l l' : List α}, filterME p l = .ok l' →
      l' = l.filter (fun a => p a == .ok true) := by
  intro l
  induction l with
  | nil =>
    intro l' h
    cases h
    rfl
  | cons a t ih =>
    intro l' h
    simp only [filterME] at h
    cases hpa : p a with
    | error e => rw [hpa] at h; simp [Bind.bind, Except.bind] at h
    | ok b =>
      rw [hpa] at h
      simp only [Bind.bind, Except.bind] at h
      cases hrec : filterME p t with
      | error e => rw [hrec] at h; simp at h
      | ok u =>
        rw [hrec] at h
        cases b with
        | true =>
          simp only [pure, Except.pure, Except.ok.injEq] at h
          subst h
          have hcond : (p a == Except.ok true) = true := by rw [hpa]; rfl
          simp only [List.filter_cons, hcond, if_pos rfl, if_true]
          rw [ih hrec]
        | false =>
          simp only [pure, Except.pure, Except.ok.injEq] at h
          subst h
          have hcond : (p a == Except.ok true) = false := by rw [hpa]; rfl
          simp only [List.filter_cons, hcond]
          rw [if_neg (by simp : ¬ false = true)]
          exact ih hrec

theorem filterME_ok_of_all {p : α → Except JSError Bool} :
    ∀ {l : List α}, (∀ a ∈ l, exceptIsOk (p a) = true) →
      filterME p l = .ok (l.filter (fun a => p a == .ok true)) := by
  intro l
  induction l with
  | nil => intro _; rfl
  | cons a t ih =>
    intro h
    have ha := h a (List.mem_cons_self a t)
    cases hpa : p a with
    | error e => rw [hpa] at ha; simp [exceptIsOk] at ha
    | ok b =>
      simp only [filterME, hpa, Bind.bind, Except.bind]
      rw [ih (fun x hx => h x (List.mem_cons_of_mem a hx))]
      cases b with
      | true =>
        have hcond : (p a == Except.ok true) = true := by rw [hpa]; rfl
        simp only [List.filter_cons, hcond, if_pos rfl, if_true]
        rfl
      | false =>
        have hcond : (p a == Except.ok true) = false := by rw [hpa]; rfl
        simp only [List.filter_cons, hcond]
        rw [if_neg (by simp : ¬ false = true)]
        rfl

namespace HealthDataManager

/-- All records of the four partitions, in partition iteration order. -/
def allRecords (data : PartitionedData) : List RawRecord :=
  data.labs ++ data.vitals ++ data.activity ++ data.sleep

theorem matchedEntries_ok_eq {data : PartitionedData} {name : String} {es : List RawRecord}
    (h : matchedEntries data name = .ok es) :
    es = (allRecords data).filter (fun r => metricTest name r == .ok true) := by
  simp only [matchedEntries] at h
  cases h1 : filterME (metricTest name) data.labs with
  | error e => rw [h1] at h; simp [Bind.bind, Except.bind] at h
  | ok l1 =>
    rw [h1] at h
    simp only [Bind.bind, Except.bind] at h
    cases h2 : filterME (metricTest name) data.vitals with
    | error e => rw [h2] at h; simp at h
    | ok l2 =>
      rw [h2] at h
      cases h3 : filterME (metricTest name) data.activity with
      | error e => rw [h3] at h; simp at h
      | ok l3 =>
        rw [h3] at h
        cases h4 : filterME (metricTest name) data.sleep with
        | error e => rw [h4] at h; simp at h
        | ok l4 =>
          rw [h4] at h
          simp only [pure, Except.pure, Except.ok.injEq] at h
          subst h
          rw [filterME_ok_eq h1, filterME_ok_eq h2, filterME_ok_eq h3, filterME_ok_eq h4]
          simp [allRecords, List.filter_append]

theorem matchedEntries_ok_of_all {data : PartitionedData} {name : String}
    (h : ∀ r ∈ allRecords data, exceptIsOk (metricTest name r) = true) :
    matchedEntries data name =
      .ok ((allRecords data).filter (fun r => metricTest name r == .ok true)) := by
  have hl : ∀ r ∈ data.labs, exceptIsOk (metricTest name r) = true := by
    intro r hr
    exact h r (by simp [allRecords, hr])
  have hv : ∀ r ∈ data.vitals, exceptIsOk (metricTest name r) = true := by
    intro r hr
    exact h r (by simp [allRecords, hr])
  have ha : ∀ r ∈ data.activity, exceptIsOk (metricTest name r) = true := by
    intro r hr
    exact h r (by simp [allRecords, hr])
  have hs : ∀ r ∈ data.sleep, exceptIsOk (metricTest name r) = true := by
    intro r hr
    exact h r (by simp [allRecords, hr])
  simp only [matchedEntries, filterME_ok_of_all hl, filterME_ok_of_all hv,
    filterME_ok_of_all ha, filterME_ok_of_all hs, Bind.bind, Except.bind]
  simp only [pure, Except.pure, Except.ok.injEq]
  simp [allRecords, List.filter_append]

theorem getMetricData_ok_inv {data : PartitionedData} {name : String} {s : List Point}
    (h : getMetricData data name = .ok s) :
    ∃ es, matchedEntries data name = .ok es ∧ s = seriesOf es := by
  simp only [getMetricData] at h
  cases hm : matchedEntries data name with
  | error e => rw [hm] at h; simp [Bind.bind, Except.bind] at h
  | ok es =>
    rw [hm] at h
    simp only [Bind.bind, Except.bind, pure, Except.pure, Except.ok.injEq] at h
    exact ⟨es, rfl, h.symm⟩

theorem getMetricData_of_matched {data : PartitionedData} {name : String}
    {es : List RawRecord} (h : matchedEntries data name = .ok es) :
    getMetricData data name = .ok (seriesOf es) := by
  simp only [getMetricData, h, Bind.bind, Except.bind]
  rfl

theorem seriesOf_mem_of_lastWrite {es : List RawRecord} {t : String} {r : RawRecord}
    (hlast : (es.filter (writesTs t)).getLast? = some r)
    (hnan : jsIsNaN (writtenVal r) = false) :
    Point.mk (jsDateOf (.str t)) (writtenVal r) ∈ seriesOf es := by
  unfold seriesOf
  have hlk : lookupJS (es.foldl dedupStep []) (.str t) = some (writtenVal r) := by
    have hd := dedup_lookup t es []
    rw [hlast] at hd
    simpa [optOr] using hd
  have hmem : (JSVal.str t, writtenVal r) ∈ es.foldl dedupStep [] := lookupJS_mem hlk
  have hmap : Point.mk (jsDateOf (.str t)) (writtenVal r) ∈
      (es.foldl dedupStep []).map (fun kv => Point.mk (jsDateOf kv.1) kv.2) := by
    exact List.mem_map_of_mem _ hmem
  have hfil : Point.mk (jsDateOf (.str t)) (writtenVal r) ∈
      ((es.foldl dedupStep []).map (fun kv => Point.mk (jsDateOf kv.1) kv.2)).filter
        (fun p => !(jsIsNaN p.y)) := by
    refine List.mem_filter.mpr ⟨hmap, ?_⟩
    simp [hnan]
  exact (insertionSortB_perm pointLeB _).mem_iff.mpr hfil

end HealthDataManager

/-! ### Lemmas: sortedness of the series -/

/-- The ordering the specification claims for a returned series, read
charitably: any two points that both carry valid dates appear in
non-decreasing date order (pairs involving an invalid date are not
constrained). -/
def validLeB (p q : Point) : Bool :=
  match p.x, q.x with
  | .valid a, .valid b => decide (a ≤ b)
  | _, _ => true

/-- A series is sorted non-decreasing in parsed timestamp. -/
def sortedByParsedTime (l : List Point) : Prop :=
  List.Pairwise (fun p q => validLeB p q = true) l

/-- Date of a point with an arbitrary default for invalid dates, giving
a total preorder that agrees with the sort comparator on valid dates. -/
def msD (p : Point) : ℤ :=
  match p.x with
  | .valid m => m
  | .invalid => 0

namespace HealthDataManager

theorem seriesOf_sorted_of_valid {es : List RawRecord}
    (h : ∀ p ∈ seriesOf es, p.x ≠ .invalid) : sortedByParsedTime (seriesOf es) := by
  unfold seriesOf at h ⊢
  set base := (((es.foldl dedupStep []).map
    (fun kv => Point.mk (jsDateOf kv.1) kv.2)).filter (fun p => !(jsIsNaN p.y))) with hbase
  have hvalid : ∀ p ∈ base, p.x ≠ .invalid := by
    intro p hp
    exact h p ((insertionSortB_perm pointLeB base).mem_iff.mpr hp)
  have hcongr : insertionSortB pointLeB base =
      insertionSortB (fun p q => decide (msD p ≤ msD q)) base := by
    refine insertionSortB_congr ?_
    intro p hp q hq
    obtain ⟨a, ha⟩ : ∃ a, p.x = .valid a := by
      cases hx : p.x
      · exact absurd hx (hvalid p hp)
      · exact ⟨_, rfl⟩
    obtain ⟨b, hb⟩ : ∃ b, q.x = .valid b := by
      cases hx : q.x
      · exact absurd hx (hvalid q hq)
      · exact ⟨_, rfl⟩
    simp [pointLeB, msD, ha, hb]
  rw [hcongr]
  have hsorted := @insertionSortB_sorted Point
    (fun p q => decide (msD p ≤ msD q))
    (fun a b => by
      rcases le_total (msD a) (msD b) with hle | hle
      · left; simpa using hle
      · right; simpa using hle)
    (fun a b c hab hbc => by
      simp only [decide_eq_true_eq] at hab hbc ⊢
      exact le_trans hab hbc)
    base
  refine List.Pairwise.imp_of_mem ?_ hsorted
  intro p q hp hq hle
  have hp2 : p ∈ base := (insertionSortB_perm _ base).mem_iff.mp hp
  have hq2 : q ∈ base := (insertionSortB_perm _ base).mem_iff.mp hq
  obtain ⟨a, ha⟩ : ∃ a, p.x = .valid a := by
    cases hx : p.x
    · exact absurd hx (hvalid p hp2)
    · exact ⟨_, rfl⟩
  obtain ⟨b, hb⟩ : ∃ b, q.x = .valid b := by
    cases hx : q.x
    · exact absurd hx (hvalid q hq2)
    · exact ⟨_, rfl⟩
  simp only [decide_eq_true_eq, msD, ha, hb] at hle
  simp [validLeB, ha, hb, hle]

end HealthDataManager

/-! ## Claim C1 -/

/-- Counterexample data for C1: three records of metric `m`; the middle
timestamp does not parse. -/
def c1Data : PartitionedData :=
  { labs := [ { metric := some (.str "m"), timestamp := some (.str "2020-01-02"),
                value := some (.str "1") },
              { metric := some (.str "m"), timestamp := some (.str "garbage"),
                value := some (.str "2") },
              { metric := some (.str "m"), timestamp := some (.str "2010-01-02"),
                value := some (.str "3") } ] }

/-- C1, counterexample: the claim says every returned series is sorted
non-decreasing in parsed timestamp, but a record with an unparseable
timestamp survives into the series (only `NaN` values are filtered, not
invalid dates), makes the sort comparator inconsistent, and leaves two
valid-dated points (2020 before 2010) out of order. -/
theorem C1_counterexample :
    HealthDataManager.getMetricData c1Data "m" =
      .ok [⟨.valid 1577923200000, .fin 1 0⟩, ⟨.invalid, .fin 2 0⟩,
           ⟨.valid 1262390400000, .fin 3 0⟩] ∧
    ¬ sortedByParsedTime
      [⟨.valid 1577923200000, .fin 1 0⟩, ⟨.invalid, .fin 2 0⟩,
       ⟨.valid 1262390400000, .fin 3 0⟩] := by
  constructor
  · decide
  · intro h
    have := (List.pairwise_cons.mp h).1 ⟨.valid 1262390400000, .fin 3 0⟩ (by simp)
    simp [validLeB] at this

/-- C1 (amended): whenever `getMetricData` returns (rather than
throwing on a truthy non-string metric field), the result is a list
that contains at most one point per distinct raw timestamp key among
the matching records, and it is sorted non-decreasing in parsed
timestamp provided every returned point carries a valid parsed date
(points with unparseable timestamps survive and may sit out of
order). -/
theorem C1_theorem {data : PartitionedData} {name : String} {s : List Point}
    (h : HealthDataManager.getMetricData data name = .ok s) :
    s.length ≤ ((HealthDataManager.tsCandidates
        ((HealthDataManager.allRecords data).filter
          (fun r => HealthDataManager.metricTest name r == .ok true))).dedup).length ∧
    ((∀ p ∈ s, p.x ≠ .invalid) → sortedByParsedTime s) := by
  obtain ⟨es, hes, hs⟩ := HealthDataManager.getMetricData_ok_inv h
  subst hs
  have hese := HealthDataManager.matchedEntries_ok_eq hes
  constructor
  · rw [← hese]
    exact HealthDataManager.seriesOf_length_le es
  · exact fun hv => HealthDataManager.seriesOf_sorted_of_valid hv

/-- C1, witness: the amended theorem applied to a concrete two-record
dataset. -/
theorem C1_witness :
    [Point.mk (.valid 1262390400000) (.fin 3 0), Point.mk (.valid 1577923200000) (.fin 1 0)].length ≤
      ((HealthDataManager.tsCandidates
        ((HealthDataManager.allRecords
            { labs := [ { metric := some (.str "m"), timestamp := some (.str "2020-01-02"),
                          value := some (.str "1") },
                        { metric := some (.str "m"), timestamp := some (.str "2010-01-02"),
                          value := some (.str "3") } ] }).filter
          (fun r => HealthDataManager.metricTest "m" r == .ok true))).dedup).length ∧
    ((∀ p ∈ [Point.mk (.valid 1262390400000) (.fin 3 0),
             Point.mk (.valid 1577923200000) (.fin 1 0)], p.x ≠ JSDate.invalid) →
      sortedByParsedTime [Point.mk (.valid 1262390400000) (.fin 3 0),
        Point.mk (.valid 1577923200000) (.fin 1 0)]) :=
  C1_theorem (by decide)

/-! ## Claim C2 -/

/-- Counterexample data for C2: one matching record whose value is the
number `0`. -/
def c2Data : PartitionedData :=
  { labs := [ { metric := some (.str "m"),
                timestamp := some (.str "2024-01-01T00:00:00Z"),
                value := some (.num (.fin 0 0)) } ] }

/-- C2, counterexample: the claim says a matching record with a present
timestamp whose value parses to a finite number — explicitly including
the number `0` — contributes a point.  But `d.value || d.Value` treats
the falsy number `0` as absent, so the record writes nothing and the
series is empty. -/
theorem C2_counterexample :
    HealthDataManager.metricTest "m"
      { metric := some (.str "m"), timestamp := some (.str "2024-01-01T00:00:00Z"),
        value := some (.num (.fin 0 0)) } = .ok true ∧
    jsParseFloat (.num (.fin 0 0)) = .fin 0 0 ∧
    HealthDataManager.getMetricData c2Data "m" = .ok [] := by
  decide

/-- C2 (amended): a matching record contributes its point exactly when
its coalesced timestamp is a truthy string, its value field coalesces
under JavaScript truthiness to a defined value (so a falsy `value`
such as the number `0` falls through to `Value` and is dropped when
that is absent), that value parses to a non-`NaN` number (`±Infinity`
is kept), and no later matching record writes the same raw timestamp
string: formally, the last matching writer of a timestamp key always
has its point in the returned series when the parse is not `NaN`. -/
theorem C2_theorem {data : PartitionedData} {name : String} {s : List Point}
    {t : String} {r : RawRecord}
    (hok : HealthDataManager.getMetricData data name = .ok s)
    (hlast : (((HealthDataManager.allRecords data).filter
        (fun r => HealthDataManager.metricTest name r == .ok true)).filter
        (HealthDataManager.writesTs t)).getLast? = some r)
    (hnan : jsIsNaN (HealthDataManager.writtenVal r) = false) :
    Point.mk (jsDateOf (.str t)) (HealthDataManager.writtenVal r) ∈ s := by
  obtain ⟨es, hes, hs⟩ := HealthDataManager.getMetricData_ok_inv hok
  subst hs
  rw [← HealthDataManager.matchedEntries_ok_eq hes] at hlast
  exact HealthDataManager.seriesOf_mem_of_lastWrite hlast hnan

/-- The single record of the C2 witness dataset. -/
def c2wRec : RawRecord :=
  { metric := some (.str "m"), timestamp := some (.str "2024-01-01T00:00:00Z"),
    value := some (.str "62") }

/-- C2, witness: the amended theorem applied to a concrete record. -/
theorem C2_witness :
    Point.mk (jsDateOf (.str "2024-01-01T00:00:00Z"))
      (HealthDataManager.writtenVal c2wRec) ∈
      [Point.mk (.valid 1704067200000) (.fin 62 0)] :=
  @C2_theorem { labs := [c2wRec] } "m" [Point.mk (.valid 1704067200000) (.fin 62 0)]
    "2024-01-01T00:00:00Z" c2wRec (by decide) (by decide) (by decide)

/-! ## Claim C3 -/

theorem filter_key_length_le_one {m : List (JSVal × JSNum)}
    (hnd : (keysOf m).Nodup) (t : String) :
    (m.filter (fun kv => jsValEq kv.1 (.str t))).length ≤ 1 := by
  induction m with
  | nil => simp
  | cons kv rest ih =>
    obtain ⟨k0, v0⟩ := kv
    have hnd2 := List.nodup_cons.mp
      (show (k0 :: keysOf rest).Nodup from hnd)
    cases hk : jsValEq k0 (JSVal.str t) with
    | false =>
      simp only [List.filter_cons, hk]
      rw [if_neg (by simp : ¬ false = true)]
      exact ih hnd2.2
    | true =>
      have hk0 : k0 = JSVal.str t := jsValEq_str_right.mp hk
      have hrest : rest.filter (fun kv => jsValEq kv.1 (.str t)) = [] := by
        rw [List.filter_eq_nil_iff]
        intro kv2 hkv2
        intro hc
        have hkey : kv2.1 = JSVal.str t := jsValEq_str_right.mp hc
        have hmem : kv2.1 ∈ keysOf rest := List.mem_map_of_mem Prod.fst hkv2
        rw [hkey, ← hk0] at hmem
        exact hnd2.1 hmem
      simp [List.filter_cons, hk, hrest]

/-- First record of the duplicate-timestamp scenario (value 60). -/
def rhr60 : RawRecord :=
  { metric := some (.str "RestingHeartRate"),
    timestamp := some (.str "2024-01-01T00:00:00Z"),
    value := some (.num (.fin 60 0)) }

/-- Second record of the duplicate-timestamp scenario (value 62, same
raw timestamp, alternate field casing). -/
def rhr62 : RawRecord :=
  { Metric := some (.str "RESTINGHEARTRATE"),
    timestamp := some (.str "2024-01-01T00:00:00Z"),
    value := some (.num (.fin 62 0)) }

/-- The vitals partition of the specification's duplicate-timestamp
scenario. -/
def c3ScenData : PartitionedData := { vitals := [rhr60, rhr62] }

/-- Counterexample data for C3: two matching records with the identical
raw timestamp; the later one's value does not parse. -/
def c3BadData : PartitionedData :=
  { vitals := [ { metric := some (.str "m"),
                  timestamp := some (.str "2024-01-01T00:00:00Z"),
                  value := some (.str "60") },
                { metric := some (.str "m"),
                  timestamp := some (.str "2024-01-01T00:00:00Z"),
                  value := some (.str "abc") } ] }

/-- C3, counterexample: the claim says that whenever two or more
matching records carry the identical raw timestamp string, the series
keeps exactly one point for that timestamp, valued from the last match
encountered.  Here the later of two matches (same timestamp) carries an
unparseable value: it overwrites the earlier value with `NaN` in the
dedup map and the `NaN` point is then filtered, so the series keeps no
point at all for that timestamp. -/
theorem C3_counterexample :
    HealthDataManager.metricTest "m"
      { metric := some (.str "m"), timestamp := some (.str "2024-01-01T00:00:00Z"),
        value := some (.str "60") } = .ok true ∧
    HealthDataManager.metricTest "m"
      { metric := some (.str "m"), timestamp := some (.str "2024-01-01T00:00:00Z"),
        value := some (.str "abc") } = .ok true ∧
    HealthDataManager.getMetricData c3BadData "m" = .ok [] := by
  decide

/-- C3 (amended): duplicate raw timestamps keep at most one dedup entry
per raw timestamp string; the surviving value is that of the last
matching record whose value field is defined, and it yields a point
exactly when that value parses to a non-`NaN` number; in the
specification's concrete scenario (values 60 then 62 under one
timestamp) the series is exactly one point carrying 62. -/
theorem C3_theorem :
    HealthDataManager.getMetricData c3ScenData "restingheartrate" =
      .ok [⟨.valid 1704067200000, .fin 62 0⟩] ∧
    (∀ (es : List RawRecord) (t : String),
      ((es.foldl HealthDataManager.dedupStep []).filter
        (fun kv => jsValEq kv.1 (.str t))).length ≤ 1) ∧
    (∀ (data : PartitionedData) (name : String) (s : List Point) (t : String)
        (r : RawRecord),
      HealthDataManager.getMetricData data name = .ok s →
      (((HealthDataManager.allRecords data).filter
          (fun r2 => HealthDataManager.metricTest name r2 == .ok true)).filter
          (HealthDataManager.writesTs t)).getLast? = some r →
      jsIsNaN (HealthDataManager.writtenVal r) = false →
      Point.mk (jsDateOf (.str t)) (HealthDataManager.writtenVal r) ∈ s) := by
  refine ⟨by decide, ?_, ?_⟩
  · intro es t
    exact filter_key_length_le_one
      (HealthDataManager.dedup_keys es [] (by simp [keysOf])).1 t
  · intro data name s t r hok hlast hnan
    obtain ⟨es, hes, hs⟩ := HealthDataManager.getMetricData_ok_inv hok
    subst hs
    rw [← HealthDataManager.matchedEntries_ok_eq hes] at hlast
    exact HealthDataManager.seriesOf_mem_of_lastWrite hlast hnan

/-- C3, witness: the amended theorem's universal parts applied to the
concrete scenario data. -/
theorem C3_witness :
    (((([rhr60, rhr62] : List RawRecord).foldl HealthDataManager.dedupStep []).filter
      (fun kv => jsValEq kv.1 (.str "2024-01-01T00:00:00Z"))).length ≤ 1) ∧
    Point.mk (jsDateOf (.str "2024-01-01T00:00:00Z"))
      (HealthDataManager.writtenVal rhr62) ∈
      [Point.mk (.valid 1704067200000) (.fin 62 0)] :=
  ⟨C3_theorem.2.1 [rhr60, rhr62] "2024-01-01T00:00:00Z",
   C3_theorem.2.2 c3ScenData "restingheartrate"
     [Point.mk (.valid 1704067200000) (.fin 62 0)] "2024-01-01T00:00:00Z" rhr62
     (by decide) (by decide) (by decide)⟩

/-! ## Claim C7 -/

theorem mem_of_getLast?_eq {l : List α} {a : α} (h : l.getLast? = some a) : a ∈ l := by
  obtain ⟨hne, heq⟩ := List.mem_getLast?_eq_getLast (show a ∈ l.getLast? by rw [h]; rfl)
  subst heq
  exact List.getLast_mem hne

/-- A record with a truthy coalesced metric field (the ones the metric
filter can ever keep). -/
def keepMetricB (r : RawRecord) : Bool := optTruthy (jsOr r.metric r.Metric)

/-- The dataset with every metric-less (or falsy-metric) record removed
from each partition. -/
def dropNoMetric (data : PartitionedData) : PartitionedData :=
  { labs := data.labs.filter keepMetricB
  , vitals := data.vitals.filter keepMetricB
  , activity := data.activity.filter keepMetricB
  , sleep := data.sleep.filter keepMetricB }

theorem metricTest_of_not_keep {name : String} {r : RawRecord}
    (h : keepMetricB r = false) :
    HealthDataManager.metricTest name r = .ok false := by
  unfold keepMetricB at h
  cases hj : jsOr r.metric r.Metric with
  | none => simp [HealthDataManager.metricTest, hj]
  | some v =>
    rw [hj] at h
    simp only [optTruthy] at h
    simp only [HealthDataManager.metricTest, hj]
    rw [if_neg (by simp [h])]

theorem exceptBindPure (x : Except JSError α) : (x >>= fun a => pure a) = x := by
  cases x <;> rfl

theorem filterME_metricTest_dropNoMetric (name : String) :
    ∀ l : List RawRecord,
      filterME (HealthDataManager.metricTest name) (l.filter keepMetricB) =
        filterME (HealthDataManager.metricTest name) l := by
  intro l
  induction l with
  | nil => rfl
  | cons r t ih =>
    cases hk : keepMetricB r with
    | true =>
      have hfc : (r :: t).filter keepMetricB = r :: t.filter keepMetricB := by
        simp [List.filter_cons, hk]
      rw [hfc]
      simp only [filterME, ih]
    | false =>
      have hfc : (r :: t).filter keepMetricB = t.filter keepMetricB := by
        simp [List.filter_cons, hk]
      rw [hfc, ih]
      have hm := @metricTest_of_not_keep name r hk
      simp only [filterME, hm, Bind.bind, Except.bind]
      cases hrec : filterME (HealthDataManager.metricTest name) t with
      | error e => rfl
      | ok u => rfl

/-- Counterexample data for C7: a matching record whose timestamp does
not parse as a date. -/
def c7Data : PartitionedData :=
  { activity := [ { metric := some (.str "hrv"), timestamp := some (.str "not-a-date"),
                    value := some (.str "5") } ] }

/-- C7, counterexample: the claim says a record with an unparseable
timestamp is silently excluded from query results, but the code only
filters `NaN` values — the record's point appears in the series with an
invalid date. -/
theorem C7_counterexample :
    jsDateOf (.str "not-a-date") = .invalid ∧
    HealthDataManager.getMetricData c7Data "hrv" =
      .ok [⟨.invalid, .fin 5 0⟩] := by
  decide

/-- C7 (amended): a record with a missing (or falsy) metric name is
silently excluded — deleting all such records changes no query result —
and a value that parses to `NaN` never yields a point; but a record
with an unparseable timestamp is not excluded (its point appears with
an invalid date, per the counterexample) and values parsing to
`±Infinity` are kept. -/
theorem C7_theorem :
    (∀ (data : PartitionedData) (name : String) (s : List Point),
      HealthDataManager.getMetricData data name = .ok s →
      ∀ p ∈ s, jsIsNaN p.y = false) ∧
    (∀ (data : PartitionedData) (name : String),
      HealthDataManager.getMetricData (dropNoMetric data) name =
        HealthDataManager.getMetricData data name) := by
  constructor
  · intro data name s hok p hp
    obtain ⟨es, _, hs⟩ := HealthDataManager.getMetricData_ok_inv hok
    subst hs
    unfold HealthDataManager.seriesOf at hp
    have hp2 := (insertionSortB_perm HealthDataManager.pointLeB _).mem_iff.mp hp
    have := (List.mem_filter.mp hp2).2
    simpa using this
  · intro data name
    have hme : HealthDataManager.matchedEntries (dropNoMetric data) name =
        HealthDataManager.matchedEntries data name := by
      simp only [HealthDataManager.matchedEntries, dropNoMetric,
        filterME_metricTest_dropNoMetric]
    simp only [HealthDataManager.getMetricData, hme]

/-- Witness dataset for C7: one well-formed record. -/
def c7wData : PartitionedData :=
  { labs := [ { metric := some (.str "m"), timestamp := some (.str "2024-01-01T00:00:00Z"),
                value := some (.str "62") } ] }

/-- C7, witness: both amended parts applied to a concrete dataset. -/
theorem C7_witness :
    (∀ p ∈ [Point.mk (.valid 1704067200000) (.fin 62 0)], jsIsNaN p.y = false) ∧
    HealthDataManager.getMetricData (dropNoMetric c7wData) "m" =
      HealthDataManager.getMetricData c7wData "m" :=
  ⟨C7_theorem.1 c7wData "m"
      [Point.mk (.valid 1704067200000) (.fin 62 0)] (by decide),
   C7_theorem.2 c7wData "m"⟩

/-! ## Claim C9 -/

/-- Every record's coalesced metric field is a string whenever it is
truthy (the condition under which the metric filter cannot throw). -/
def stringMetricsB (data : PartitionedData) : Bool :=
  (HealthDataManager.allRecords data).all fun r =>
    match jsOr r.metric r.Metric with
    | some (.str _) => true
    | some v => !v.truthy
    | none => true

/-- Counterexample data for C9: a record whose metric field is the
number `1` (truthy, not a string). -/
def c9Data : PartitionedData :=
  { sleep := [ { metric := some (.num (.fin 1 0)),
                 timestamp := some (.str "2024-01-01"), value := some (.str "7") } ] }

/-- C9, counterexample: the claim says `querySeries` and `queryLatest`
never raise for arbitrary record data, with malformed entries silently
excluded.  A record whose metric field is a truthy non-string makes
`m.toLowerCase()` throw `TypeError`, aborting both queries (and the
whole batch). -/
theorem C9_counterexample :
    HealthDataManager.getMetricData c9Data "m" = .error .typeError ∧
    HealthDataManager.getLatestValue c9Data [] "m" = .error .typeError := by
  decide

/-- C9 (amended): `querySeries` is total on any dataset whose truthy
metric fields are all strings; `queryLatest` is additionally total when
the resulting series is empty or its points carry valid dates (its
`toISOString` call throws `RangeError` on an invalid final date). -/
theorem C9_theorem (data : PartitionedData) (metrics : List MetricDescriptor)
    (name : String) (h : stringMetricsB data = true) :
    ∃ s, HealthDataManager.getMetricData data name = .ok s ∧
      ((∀ p ∈ s, p.x ≠ .invalid) →
        ∃ res, HealthDataManager.getLatestValue data metrics name = .ok res) := by
  have hall : ∀ r ∈ HealthDataManager.allRecords data,
      exceptIsOk (HealthDataManager.metricTest name r) = true := by
    intro r hr
    have hstr := List.all_eq_true.mp h r hr
    cases hj : jsOr r.metric r.Metric with
    | none => simp [HealthDataManager.metricTest, hj, exceptIsOk]
    | some v =>
      rw [hj] at hstr
      simp only [HealthDataManager.metricTest, hj]
      cases v with
      | str s =>
        by_cases ht : JSVal.truthy (.str s) = true
        · rw [if_pos ht]; rfl
        · rw [if_neg ht]; rfl
      | num n =>
        simp only [Bool.not_eq_true'] at hstr
        rw [if_neg (by simp [hstr])]
        rfl
      | bool b =>
        simp only [Bool.not_eq_true'] at hstr
        rw [if_neg (by simp [hstr])]
        rfl
      | null =>
        simp only [Bool.not_eq_true'] at hstr
        rw [if_neg (by simp [hstr])]
        rfl
      | obj =>
        simp only [Bool.not_eq_true'] at hstr
        rw [if_neg (by simp [hstr])]
        rfl
  have hok := HealthDataManager.getMetricData_of_matched
    (HealthDataManager.matchedEntries_ok_of_all hall)
  refine ⟨_, hok, ?_⟩
  intro hv
  unfold HealthDataManager.getLatestValue
  rw [hok]
  simp only [Bind.bind, Except.bind]
  cases hlast : (HealthDataManager.seriesOf
      ((HealthDataManager.allRecords data).filter
        (fun r => HealthDataManager.metricTest name r == .ok true))).getLast? with
  | none =>
    refine ⟨none, ?_⟩
    simp [HealthDataManager.latestOf, hlast]
  | some latest =>
    have hmem := mem_of_getLast?_eq hlast
    cases hx : latest.x with
    | invalid => exact absurd hx (hv latest hmem)
    | valid ms =>
      refine ⟨some ⟨jsToISOString ms, latest.y, name,
        HealthDataManager.unitLookup metrics name⟩, ?_⟩
      simp [HealthDataManager.latestOf, hlast, hx]

/-- Witness dataset for C9: one well-formed record. -/
def c9wData : PartitionedData :=
  { vitals := [ { metric := some (.str "m"), timestamp := some (.str "2024-01-01T00:00:00Z"),
                  value := some (.str "62") } ] }

/-- C9, witness: the amended totality applied to a concrete dataset. -/
theorem C9_witness :
    ∃ s, HealthDataManager.getMetricData c9wData "m" = .ok s ∧
      ((∀ p ∈ s, p.x ≠ .invalid) →
        ∃ res, HealthDataManager.getLatestValue c9wData [] "m" = .ok res) :=
  C9_theorem c9wData [] "m" (by decide)

/-! ## Claim C6 -/

/-- Counterexample data for C6: a matching record whose timestamp does
not parse, so the series is nonempty but its last point has an invalid
date. -/
def c6Data : PartitionedData :=
  { labs := [ { metric := some (.str "m"), timestamp := some (.str "garbage"),
                value := some (.str "5") } ] }

/-- C6, counterexample: the claim says `getLatestValue` reports `null`
iff the series is empty and otherwise returns the last point's tuple.
Here the series is nonempty, yet `getLatestValue` throws `RangeError`
(from `toISOString` on the invalid date) instead of returning a
value. -/
theorem C6_counterexample :
    HealthDataManager.getMetricData c6Data "m" = .ok [⟨.invalid, .fin 5 0⟩] ∧
    HealthDataManager.getLatestValue c6Data [] "m" = .error .rangeError := by
  decide

/-- C6 (amended): given `querySeries = ok s`, `queryLatest` returns
`null` iff `s` is empty; when the last point of `s` carries a valid
date it returns `(toISOString, value, metric, unit)` with the unit
looked up case-insensitively in the index (empty string when the metric
is absent from the index, so a metric with series data but no index
entry still yields a value); when the last point's date is invalid it
throws `RangeError` instead. -/
theorem C6_theorem (data : PartitionedData) (metrics : List MetricDescriptor)
    (name : String) (s : List Point)
    (hok : HealthDataManager.getMetricData data name = .ok s) :
    (HealthDataManager.getLatestValue data metrics name = .ok none ↔ s = []) ∧
    (∀ p ms, s.getLast? = some p → p.x = .valid ms →
      HealthDataManager.getLatestValue data metrics name =
        .ok (some ⟨jsToISOString ms, p.y, name,
          HealthDataManager.unitLookup metrics name⟩)) ∧
    (∀ p, s.getLast? = some p → p.x = .invalid →
      HealthDataManager.getLatestValue data metrics name = .error .rangeError) ∧
    ((∀ d ∈ metrics, lowerStr d.name ≠ lowerStr name) →
      HealthDataManager.unitLookup metrics name = .str "") := by
  have hgl : HealthDataManager.getLatestValue data metrics name =
      HealthDataManager.latestOf metrics name s := by
    unfold HealthDataManager.getLatestValue
    rw [hok]
    rfl
  refine ⟨?_, ?_, ?_, ?_⟩
  · rw [hgl]
    cases hlast : s.getLast? with
    | none =>
      have hnil : s = [] := List.getLast?_eq_none_iff.mp hlast
      simp [HealthDataManager.latestOf, hlast, hnil]
    | some latest =>
      have hne : s ≠ [] := by
        intro hs
        rw [hs] at hlast
        simp at hlast
      cases hx : latest.x with
      | invalid => simp [HealthDataManager.latestOf, hlast, hx, hne]
      | valid ms => simp [HealthDataManager.latestOf, hlast, hx, hne]
  · intro p ms hlast hx
    rw [hgl]
    simp [HealthDataManager.latestOf, hlast, hx]
  · intro p hlast hx
    rw [hgl]
    simp [HealthDataManager.latestOf, hlast, hx]
  · intro hnone
    unfold HealthDataManager.unitLookup
    have hfind : metrics.find? (fun m => lowerStr m.name == lowerStr name) = none := by
      rw [List.find?_eq_none]
      intro d hd
      simp [hnone d hd]
    rw [hfind]

/-- Witness dataset for C6: one well-formed record, with an empty
metric index. -/
def c6wData : PartitionedData :=
  { activity := [ { metric := some (.str "m"),
                    timestamp := some (.str "2024-01-01T00:00:00Z"),
                    value := some (.str "62") } ] }

/-- C6, witness: the amended theorem applied to a concrete dataset
whose metric is absent from the (empty) index. -/
theorem C6_witness :
    (HealthDataManager.getLatestValue c6wData [] "m" = .ok none ↔
      ([Point.mk (.valid 1704067200000) (.fin 62 0)] : List Point) = []) ∧
    (∀ p ms, ([Point.mk (.valid 1704067200000) (.fin 62 0)] : List Point).getLast? = some p →
      p.x = .valid ms →
      HealthDataManager.getLatestValue c6wData [] "m" =
        .ok (some ⟨jsToISOString ms, p.y, "m", HealthDataManager.unitLookup [] "m"⟩)) ∧
    (∀ p, ([Point.mk (.valid 1704067200000) (.fin 62 0)] : List Point).getLast? = some p →
      p.x = .invalid →
      HealthDataManager.getLatestValue c6wData [] "m" = .error .rangeError) ∧
    ((∀ d ∈ ([] : List MetricDescriptor), lowerStr d.name ≠ lowerStr "m") →
      HealthDataManager.unitLookup [] "m" = .str "") :=
  C6_theorem c6wData [] "m" [Point.mk (.valid 1704067200000) (.fin 62 0)] (by decide)

/-! ## Claim C8 -/

/-- A record for the C8 counterexample's successfully loaded first
file. -/
def c8Rec : RawRecord :=
  { metric := some (.str "x"), timestamp := some (.str "2024-01-01"),
    value := some (.str "1") }

/-- A fresh manager state: empty partitions, empty index. -/
def emptyMgr : HealthDataManager.ManagerState := ⟨{}, []⟩

/-- C8, counterexample: the claim says a failed initialization leaves
the data partitions as if no load had happened.  But each file is
written into `this.data` before the next is awaited, so when the labs
file loads and the vitals file fails, `init` returns `false` with the
labs partition already replaced. -/
theorem C8_counterexample :
    (HealthDataManager.init emptyMgr (fun _ _ => 0)
      (.ok [c8Rec]) (.error ()) (.ok []) (.ok [])).1 = false ∧
    (HealthDataManager.init emptyMgr (fun _ _ => 0)
      (.ok [c8Rec]) (.error ()) (.ok []) (.ok [])).2.data.labs = [c8Rec] ∧
    emptyMgr.data.labs = [] := by
  decide

/-- C8 (amended): `init` returns `true` exactly when all four loads
succeed and the index build succeeds, and then the final state holds
the four loaded partitions and the built index; on any failure it
returns `false` and the metric index is left untouched — but partitions
loaded before the failure remain overwritten (no rollback). -/
theorem C8_theorem (st : HealthDataManager.ManagerState) (lcmp : String → String → ℤ)
    (l v a s : Except Unit (List RawRecord)) :
    ((HealthDataManager.init st lcmp l v a s).1 = true ↔
      ∃ ld vd ad sd m, l = .ok ld ∧ v = .ok vd ∧ a = .ok ad ∧ s = .ok sd ∧
        HealthDataManager.indexMetrics ⟨ld, vd, ad, sd⟩ lcmp = .ok m ∧
        (HealthDataManager.init st lcmp l v a s).2 = ⟨⟨ld, vd, ad, sd⟩, m⟩) ∧
    ((HealthDataManager.init st lcmp l v a s).1 = false →
      (HealthDataManager.init st lcmp l v a s).2.metrics = st.metrics) := by
  cases l with
  | error e =>
    refine ⟨⟨fun h => absurd h (by simp [HealthDataManager.init]), ?_⟩, fun _ => rfl⟩
    rintro ⟨ld, vd, ad, sd, m, h1, -⟩
    exact absurd h1 (by simp)
  | ok ld =>
    cases v with
    | error e =>
      refine ⟨⟨fun h => absurd h (by simp [HealthDataManager.init]), ?_⟩, fun _ => rfl⟩
      rintro ⟨ld', vd, ad, sd, m, h1, h2, -⟩
      exact absurd h2 (by simp)
    | ok vd =>
      cases a with
      | error e =>
        refine ⟨⟨fun h => absurd h (by simp [HealthDataManager.init]), ?_⟩, fun _ => rfl⟩
        rintro ⟨ld', vd', ad, sd, m, h1, h2, h3, -⟩
        exact absurd h3 (by simp)
      | ok ad =>
        cases s with
        | error e =>
          refine ⟨⟨fun h => absurd h (by simp [HealthDataManager.init]), ?_⟩, fun _ => rfl⟩
          rintro ⟨ld', vd', ad', sd, m, h1, h2, h3, h4, -⟩
          exact absurd h4 (by simp)
        | ok sd =>
          cases hidx : HealthDataManager.indexMetrics ⟨ld, vd, ad, sd⟩ lcmp with
          | error e2 =>
            constructor
            · constructor
              · intro h
                exact absurd h (by simp [HealthDataManager.init, hidx])
              · rintro ⟨ld', vd', ad', sd', m, h1, h2, h3, h4, h5, h6⟩
                injection h1 with e1
                injection h2 with e2
                injection h3 with e3
                injection h4 with e4
                subst e1; subst e2; subst e3; subst e4
                rw [hidx] at h5
                exact absurd h5 (by simp)
            · intro _
              simp [HealthDataManager.init, hidx]
          | ok m =>
            constructor
            · constructor
              · intro _
                exact ⟨ld, vd, ad, sd, m, rfl, rfl, rfl, rfl, hidx,
                  by simp [HealthDataManager.init, hidx]⟩
              · intro _
                simp [HealthDataManager.init, hidx]
            · intro h
              exact absurd h (by simp [HealthDataManager.init, hidx])

/-- C8, witness: the amended theorem at a concrete all-success input
and at a concrete failing input. -/
theorem C8_witness :
    ((HealthDataManager.init emptyMgr (fun _ _ => 0)
        (.ok [c8Rec]) (.ok []) (.ok []) (.ok [])).1 = true ↔
      ∃ ld vd ad sd m, (Except.ok [c8Rec] : Except Unit (List RawRecord)) = .ok ld ∧
        (Except.ok [] : Except Unit (List RawRecord)) = .ok vd ∧
        (Except.ok [] : Except Unit (List RawRecord)) = .ok ad ∧
        (Except.ok [] : Except Unit (List RawRecord)) = .ok sd ∧
        HealthDataManager.indexMetrics ⟨ld, vd, ad, sd⟩ (fun _ _ => 0) = .ok m ∧
        (HealthDataManager.init emptyMgr (fun _ _ => 0)
          (.ok [c8Rec]) (.ok []) (.ok []) (.ok [])).2 = ⟨⟨ld, vd, ad, sd⟩, m⟩) ∧
    ((HealthDataManager.init emptyMgr (fun _ _ => 0)
        (.ok [c8Rec]) (.ok []) (.ok []) (.ok [])).1 = false →
      (HealthDataManager.init emptyMgr (fun _ _ => 0)
        (.ok [c8Rec]) (.ok []) (.ok []) (.ok [])).2.metrics = emptyMgr.metrics) :=
  C8_theorem emptyMgr (fun _ _ => 0) (.ok [c8Rec]) (.ok []) (.ok []) (.ok [])

/-! ## Claim C10 -/

/-- C10: any range tag that is not exactly `1M`, `6M`, or `ALL` —
including the documented `1Y` and any unrecognized string — is handled
without error as a trailing 12-calendar-month window: the filter equals
the explicit 12-month cutoff filter and coincides with the `1Y`
behaviour; it does not return the series unfiltered. -/
theorem C10_theorem (series : List Point) (now : JSDate) (range : String)
    (h1 : range ≠ "1M") (h6 : range ≠ "6M") (hA : range ≠ "ALL") :
    DashboardUI.updateChartFilter series range now =
      series.filter (fun p => dateGeB p.x (jsSetMonth now (jsGetMonth0 now - 12))) ∧
    DashboardUI.updateChartFilter series range now =
      DashboardUI.updateChartFilter series "1Y" now := by
  have hb1 : (range == "1M") = false := by
    simp [h1]
  have hb6 : (range == "6M") = false := by
    simp [h6]
  have hbA : (range != "ALL") = true := by
    simp [bne, hA]
  constructor
  · simp [DashboardUI.updateChartFilter, DashboardUI.monthsOfRange, hbA, hb1, hb6]
  · simp [DashboardUI.updateChartFilter, DashboardUI.monthsOfRange, hbA, hb1, hb6]

/-- C10, witness: the theorem applied to the unrecognized tag `2Y`. -/
theorem C10_witness :
    DashboardUI.updateChartFilter [Point.mk (.valid 0) (.fin 1 0)] "2Y" (.valid 1704067200000) =
      [Point.mk (.valid 0) (.fin 1 0)].filter
        (fun p => dateGeB p.x (jsSetMonth (.valid 1704067200000)
          (jsGetMonth0 (.valid 1704067200000) - 12))) ∧
    DashboardUI.updateChartFilter [Point.mk (.valid 0) (.fin 1 0)] "2Y" (.valid 1704067200000) =
      DashboardUI.updateChartFilter [Point.mk (.valid 0) (.fin 1 0)] "1Y" (.valid 1704067200000) :=
  C10_theorem [Point.mk (.valid 0) (.fin 1 0)] (.valid 1704067200000) "2Y"
    (by decide) (by decide) (by decide)

/-! ## Claim C4 -/

/-- Whether a value is a string. -/
def JSVal.isStr : JSVal → Bool
  | .str _ => true
  | _ => false

namespace HealthDataManager

theorem metricStrE_ok_some {r : RawRecord} {s : String}
    (hm : metricStrE r = .ok (some s)) :
    jsOr r.metric r.Metric = some (.str s) := by
  cases hj : jsOr r.metric r.Metric with
  | none => simp [metricStrE, hj] at hm
  | some v =>
    simp only [metricStrE, hj] at hm
    by_cases ht : v.truthy = true
    · rw [if_pos ht] at hm
      cases v with
      | str s2 =>
        simp only [Except.ok.injEq, Option.some.injEq] at hm
        rw [hm]
      | num n => simp at hm
      | bool b => simp at hm
      | null => simp at hm
      | obj => simp at hm
    · rw [if_neg ht] at hm
      simp at hm

theorem indexFold_ok_prefix :
    ∀ {l : List (String × RawRecord)} {acc res : List MetricDescriptor},
      indexFold l acc = .ok res → ∃ ext, res = acc ++ ext := by
  intro l
  induction l with
  | nil =>
    intro acc res h
    cases h
    exact ⟨[], by simp⟩
  | cons tr rest ih =>
    intro acc res h
    obtain ⟨tag, r⟩ := tr
    cases hm : metricStrE r with
    | error e =>
      simp only [indexFold, hm] at h
      exact absurd h (by simp)
    | ok os =>
      cases os with
      | none =>
        simp only [indexFold, hm] at h
        exact ih h
      | some s =>
        simp only [indexFold, hm] at h
        by_cases hany : (acc.any (fun d => d.name == lowerStr s)) = true
        · rw [if_pos hany] at h
          exact ih h
        · rw [if_neg hany] at h
          obtain ⟨ext, he⟩ := ih h
          exact ⟨mkDescriptor tag r s :: ext, by simp [he]⟩

theorem indexFold_ok_nodup :
    ∀ {l : List (String × RawRecord)} {acc res : List MetricDescriptor},
      indexFold l acc = .ok res → (acc.map (fun d => d.name)).Nodup →
      (res.map (fun d => d.name)).Nodup := by
  intro l
  induction l with
  | nil =>
    intro acc res h hnd
    cases h
    exact hnd
  | cons tr rest ih =>
    intro acc res h hnd
    obtain ⟨tag, r⟩ := tr
    cases hm : metricStrE r with
    | error e =>
      simp only [indexFold, hm] at h
      exact absurd h (by simp)
    | ok os =>
      cases os with
      | none =>
        simp only [indexFold, hm] at h
        exact ih h hnd
      | some s =>
        simp only [indexFold, hm] at h
        by_cases hany : (acc.any (fun d => d.name == lowerStr s)) = true
        · rw [if_pos hany] at h
          exact ih h hnd
        · rw [if_neg hany] at h
          refine ih h ?_
          have hnotin : lowerStr s ∉ acc.map (fun d => d.name) := by
            intro hc
            obtain ⟨d, hd, hdn⟩ := List.mem_map.mp hc
            have := List.any_eq_false.mp (by
              cases he : acc.any (fun d => d.name == lowerStr s)
              · rfl
              · exact absurd he hany) d hd
            simp [hdn] at this
          simp only [List.map_append, List.map_cons, List.map_nil]
          rw [List.nodup_append]
          refine ⟨hnd, List.nodup_singleton _, ?_⟩
          intro x hx hx2
          have hxv : x = lowerStr s := by
            have h2 := List.mem_singleton.mp hx2
            rw [h2]
            rfl
          rw [hxv] at hx
          exact hnotin hx

theorem indexFold_ok_origin :
    ∀ {l : List (String × RawRecord)} {acc res : List MetricDescriptor},
      indexFold l acc = .ok res →
      ∀ d ∈ res, d ∈ acc ∨
        (d.name ∉ acc.map (fun d2 => d2.name) ∧
          ∃ tr, l.find? (fun tr2 => recordKey tr2.2 == some d.name) = some tr ∧
            ∃ s, jsOr tr.2.metric tr.2.Metric = some (.str s) ∧
              d = mkDescriptor tr.1 tr.2 s) := by
  intro l
  induction l with
  | nil =>
    intro acc res h d hd
    cases h
    exact Or.inl hd
  | cons tr rest ih =>
    intro acc res h d hd
    obtain ⟨tag, r⟩ := tr
    cases hm : metricStrE r with
    | error e =>
      simp only [indexFold, hm] at h
      exact absurd h (by simp)
    | ok os =>
      cases os with
      | none =>
        simp only [indexFold, hm] at h
        have hkey : recordKey r = none := by simp [recordKey, hm]
        rcases ih h d hd with hl | ⟨hn, tr2, hfind, hrest⟩
        · exact Or.inl hl
        · refine Or.inr ⟨hn, tr2, ?_, hrest⟩
          rw [List.find?_cons_of_neg _ (by simp [hkey])]
          exact hfind
      | some s =>
        simp only [indexFold, hm] at h
        have hkey : recordKey r = some (lowerStr s) := by simp [recordKey, hm]
        by_cases hany : (acc.any (fun d2 => d2.name == lowerStr s)) = true
        · rw [if_pos hany] at h
          rcases ih h d hd with hl | ⟨hn, tr2, hfind, hrest⟩
          · exact Or.inl hl
          · refine Or.inr ⟨hn, tr2, ?_, hrest⟩
            have hne : d.name ≠ lowerStr s := by
              intro hc
              obtain ⟨d2, hd2, hd2n⟩ := List.any_eq_true.mp hany
              have hd2n2 : d2.name = lowerStr s := by simpa using hd2n
              refine hn ?_
              rw [hc, ← hd2n2]
              exact List.mem_map_of_mem _ hd2
            rw [List.find?_cons_of_neg _ (by simp [hkey, hne.symm])]
            exact hfind
        · rw [if_neg hany] at h
          have hnotin : lowerStr s ∉ acc.map (fun d2 => d2.name) := by
            intro hc
            obtain ⟨d2, hd2, hd2n⟩ := List.mem_map.mp hc
            have := List.any_eq_false.mp (by
              cases he : acc.any (fun d2 => d2.name == lowerStr s)
              · rfl
              · exact absurd he hany) d2 hd2
            simp [hd2n] at this
          rcases ih h d hd with hl | ⟨hn, tr2, hfind, hrest⟩
          · rcases List.mem_append.mp hl with hacc | hnew
            · exact Or.inl hacc
            · have hdval : d = mkDescriptor tag r s := by simpa using hnew
              refine Or.inr ⟨?_, (tag, r), ?_, s, metricStrE_ok_some hm, hdval⟩
              · rw [hdval]
                exact hnotin
              · rw [List.find?_cons_of_pos _ (by
                  simp [hkey, hdval, mkDescriptor])]
          · refine Or.inr ⟨?_, tr2, ?_, hrest⟩
            · intro hc
              refine hn ?_
              simp only [List.map_append, List.map_cons, List.map_nil]
              exact List.mem_append.mpr (Or.inl hc)
            · have hne : d.name ≠ lowerStr s := by
                intro hc
                refine hn ?_
                simp only [List.map_append, List.map_cons, List.map_nil]
                refine List.mem_append.mpr (Or.inr ?_)
                simp [hc, mkDescriptor]
              rw [List.find?_cons_of_neg _ (by simp [hkey, hne.symm])]
              exact hfind

theorem indexFold_ok_complete :
    ∀ {l : List (String × RawRecord)} {acc res : List MetricDescriptor},
      indexFold l acc = .ok res →
      ∀ k : String, ((∃ tr ∈ l, recordKey tr.2 = some k) ∨
          k ∈ acc.map (fun d => d.name)) →
        k ∈ res.map (fun d => d.name) := by
  intro l
  induction l with
  | nil =>
    intro acc res h k hk
    cases h
    rcases hk with ⟨tr, htr, _⟩ | hco
    · exact absurd htr (by simp)
    · exact hco
  | cons tr rest ih =>
    intro acc res h k hk
    obtain ⟨tag, r⟩ := tr
    cases hm : metricStrE r with
    | error e =>
      simp only [indexFold, hm] at h
      exact absurd h (by simp)
    | ok os =>
      cases os with
      | none =>
        simp only [indexFold, hm] at h
        have hkey : recordKey r = none := by simp [recordKey, hm]
        refine ih h k ?_
        rcases hk with ⟨tr2, htr2, hkeq⟩ | hco
        · rcases List.mem_cons.mp htr2 with he | hmem
          · rw [he, hkey] at hkeq
            exact absurd hkeq (by simp)
          · exact Or.inl ⟨tr2, hmem, hkeq⟩
        · exact Or.inr hco
      | some s =>
        simp only [indexFold, hm] at h
        have hkey : recordKey r = some (lowerStr s) := by simp [recordKey, hm]
        by_cases hany : (acc.any (fun d2 => d2.name == lowerStr s)) = true
        · rw [if_pos hany] at h
          refine ih h k ?_
          rcases hk with ⟨tr2, htr2, hkeq⟩ | hco
          · rcases List.mem_cons.mp htr2 with he | hmem
            · right
              rw [he, hkey] at hkeq
              obtain ⟨d2, hd2, hd2n⟩ := List.any_eq_true.mp hany
              have hd2n2 : d2.name = lowerStr s := by simpa using hd2n
              have hks : k = lowerStr s := by
                cases hkeq
                rfl
              rw [hks, ← hd2n2]
              exact List.mem_map_of_mem _ hd2
            · exact Or.inl ⟨tr2, hmem, hkeq⟩
          · exact Or.inr hco
        · rw [if_neg hany] at h
          refine ih h k ?_
          rcases hk with ⟨tr2, htr2, hkeq⟩ | hco
          · rcases List.mem_cons.mp htr2 with he | hmem
            · right
              rw [he, hkey] at hkeq
              have hks : k = lowerStr s := by
                cases hkeq
                rfl
              simp only [List.map_append, List.map_cons, List.map_nil]
              refine List.mem_append.mpr (Or.inr ?_)
              simp [hks, mkDescriptor]
            · exact Or.inl ⟨tr2, hmem, hkeq⟩
          · right
            simp only [List.map_append]
            exact List.mem_append.mpr (Or.inl hco)

end HealthDataManager

/-- C4: for any dataset on which `indexMetrics` returns a catalog (it
throws on a truthy non-string metric field) whose labels are strings,
and any consistent locale comparison `lcmp`: descriptor names are
unique; every descriptor is materialised from the first record — in
partition-then-record order — carrying its lower-cased key, taking
label and unit from that record and the source tag of that record's
partition; every non-empty lower-cased metric name occurring in the
data owns a descriptor; and the catalog is sorted ascending by label
under `lcmp`. -/
theorem C4_theorem (data : PartitionedData) (lcmp : String → String → ℤ)
    (l : List MetricDescriptor)
    (htot : ∀ a b, lcmp a b ≤ 0 ∨ lcmp b a ≤ 0)
    (htrans : ∀ a b c, lcmp a b ≤ 0 → lcmp b c ≤ 0 → lcmp a c ≤ 0)
    (hok : HealthDataManager.indexMetrics data lcmp = .ok l)
    (hlab : (l.all fun d => d.label.isStr) = true) :
    (l.map (fun d => d.name)).Nodup ∧
    (∀ d ∈ l, ∃ tr, (HealthDataManager.sourceTagged data).find?
        (fun tr2 => HealthDataManager.recordKey tr2.2 == some d.name) = some tr ∧
      ∃ s, jsOr tr.2.metric tr.2.Metric = some (.str s) ∧
        d = HealthDataManager.mkDescriptor tr.1 tr.2 s) ∧
    (∀ (k : String), ∀ tr ∈ HealthDataManager.sourceTagged data,
      HealthDataManager.recordKey tr.2 = some k → ∃ d ∈ l, d.name = k) ∧
    List.Pairwise (fun d1 d2 => lcmp (HealthDataManager.jsToStr d1.label)
      (HealthDataManager.jsToStr d2.label) ≤ 0) l := by
  have hinv : ∃ res,
      HealthDataManager.indexFold (HealthDataManager.sourceTagged data) [] = .ok res ∧
      insertionSortE (HealthDataManager.labelLe lcmp) res = .ok l := by
    unfold HealthDataManager.indexMetrics at hok
    cases hf : HealthDataManager.indexFold (HealthDataManager.sourceTagged data) [] with
    | error e =>
      rw [hf] at hok
      simp [Bind.bind, Except.bind] at hok
    | ok res =>
      rw [hf] at hok
      simp only [Bind.bind, Except.bind] at hok
      exact ⟨res, rfl, hok⟩
  obtain ⟨res, hfold, hsort⟩ := hinv
  have hperm : List.Perm l res := insertionSortE_ok_perm hsort
  have hlabres : ∀ d ∈ res, ∃ sd, d.label = JSVal.str sd := by
    intro d hd
    have hdl : d ∈ l := hperm.mem_iff.mpr hd
    have hstr := List.all_eq_true.mp hlab d hdl
    cases hL : d.label with
    | str sd => exact ⟨sd, rfl⟩
    | num n => rw [hL] at hstr; simp [JSVal.isStr] at hstr
    | bool b => rw [hL] at hstr; simp [JSVal.isStr] at hstr
    | null => rw [hL] at hstr; simp [JSVal.isStr] at hstr
    | obj => rw [hL] at hstr; simp [JSVal.isStr] at hstr
  have hpure : insertionSortE (HealthDataManager.labelLe lcmp) res =
      .ok (insertionSortB (fun d1 d2 => decide (lcmp (HealthDataManager.jsToStr d1.label)
        (HealthDataManager.jsToStr d2.label) ≤ 0)) res) := by
    refine insertionSortE_eq_pure ?_
    intro a ha b
    obtain ⟨sa, hsa⟩ := hlabres a ha
    simp [HealthDataManager.labelLe, hsa, HealthDataManager.jsToStr]
  have hleq : l = insertionSortB (fun d1 d2 =>
      decide (lcmp (HealthDataManager.jsToStr d1.label)
        (HealthDataManager.jsToStr d2.label) ≤ 0)) res := by
    rw [hsort] at hpure
    exact (Except.ok.injEq _ _).mp hpure
  refine ⟨?_, ?_, ?_, ?_⟩
  · have hresnd := HealthDataManager.indexFold_ok_nodup hfold (by simp)
    exact ((hperm.map (fun d => d.name)).nodup_iff).mpr hresnd
  · intro d hd
    have hdres : d ∈ res := hperm.mem_iff.mp hd
    rcases HealthDataManager.indexFold_ok_origin hfold d hdres with hl | ⟨_, tr, hfind, hrest⟩
    · exact absurd hl (by simp)
    · exact ⟨tr, hfind, hrest⟩
  · intro k tr htr hkey
    have hcomp := HealthDataManager.indexFold_ok_complete hfold k (Or.inl ⟨tr, htr, hkey⟩)
    obtain ⟨d, hd, hdn⟩ := List.mem_map.mp hcomp
    exact ⟨d, hperm.mem_iff.mpr hd, hdn⟩
  · have hsorted := @insertionSortB_sorted MetricDescriptor
      (fun d1 d2 => decide (lcmp (HealthDataManager.jsToStr d1.label)
        (HealthDataManager.jsToStr d2.label) ≤ 0))
      (fun a b => by
        rcases htot (HealthDataManager.jsToStr a.label) (HealthDataManager.jsToStr b.label)
          with h | h
        · left; simpa using h
        · right; simpa using h)
      (fun a b c hab hbc => by
        simp only [decide_eq_true_eq] at hab hbc ⊢
        exact htrans _ _ _ hab hbc)
      res
    rw [hleq]
    exact hsorted.imp (fun h => by simpa using h)

/-- Witness dataset for C4: a labs record, a duplicate-key vitals
record in different casing, and a fresh vitals record. -/
def c4wData : PartitionedData :=
  { labs := [ { metric := some (.str "HbA1c"), source_display := some (.str "A1C"),
                unit := some (.str "%") } ],
    vitals := [ { Metric := some (.str "HBA1C"), unit := some (.str "x") },
                { metric := some (.str "RHR") } ] }

/-- The catalog `indexMetrics` builds for the C4 witness dataset. -/
def c4wIndex : List MetricDescriptor :=
  [⟨"hba1c", .str "A1C", .str "%", "Labs"⟩, ⟨"rhr", .str "RHR", .str "", "Vitals"⟩]

/-- C4, witness: the theorem applied to the witness dataset with the
constant (everything-ties) locale comparison. -/
theorem C4_witness :
    (c4wIndex.map (fun d => d.name)).Nodup ∧
    (∀ d ∈ c4wIndex, ∃ tr, (HealthDataManager.sourceTagged c4wData).find?
        (fun tr2 => HealthDataManager.recordKey tr2.2 == some d.name) = some tr ∧
      ∃ s, jsOr tr.2.metric tr.2.Metric = some (.str s) ∧
        d = HealthDataManager.mkDescriptor tr.1 tr.2 s) ∧
    (∀ (k : String), ∀ tr ∈ HealthDataManager.sourceTagged c4wData,
      HealthDataManager.recordKey tr.2 = some k → ∃ d ∈ c4wIndex, d.name = k) ∧
    List.Pairwise (fun d1 d2 => (fun (_ _ : String) => (0 : ℤ)) (HealthDataManager.jsToStr d1.label)
      (HealthDataManager.jsToStr d2.label) ≤ 0) c4wIndex :=
  C4_theorem c4wData (fun _ _ => 0) c4wIndex
    (fun _ _ => Or.inl (le_refl 0))
    (fun _ _ _ _ _ => le_refl 0)
    (by decide) (by decide)

/-! ## Claim C5 -/

/-- Calendar subtraction of `months` months with explicit rollover: the
target year and month come from total-month arithmetic, the day-of-month
is kept, and a day past the end of the target month rolls forward into
the following month by the excess days.  This is
`Date.prototype.setMonth` semantics spelled out as calendar
arithmetic. -/
def rollCutoffMs (y mo d tod months : ℤ) : ℤ :=
  let M := y * 12 + (mo - 1) - months
  let ty := M.fdiv 12
  let tm := M.emod 12 + 1
  if d ≤ daysInMonth ty tm then daysFromCivil ty tm d * dayMs + tod
  else daysFromCivil ty tm (daysInMonth ty tm) * dayMs +
    (d - daysInMonth ty tm) * dayMs + tod

/-- The cutoff claim C5 describes, following the specification's words
(for comparison with the code's semantics): subtract the months and
clamp a nonexistent day-of-month to the target month's last day. -/
def specClampCutoffMs (y mo d tod months : ℤ) : ℤ :=
  let M := y * 12 + (mo - 1) - months
  let ty := M.fdiv 12
  let tm := M.emod 12 + 1
  daysFromCivil ty tm (min d (daysInMonth ty tm)) * dayMs + tod

theorem daysFromCivil_day (y m d : ℤ) :
    daysFromCivil y m d = daysFromCivil y m 1 + (d - 1) := by
  simp only [daysFromCivil]
  ring

theorem fdiv12_add_mul (a b : ℤ) : (a + b * 12).fdiv 12 = a.fdiv 12 + b := by
  rw [Int.fdiv_eq_ediv _ (by norm_num), Int.fdiv_eq_ediv _ (by norm_num),
    Int.add_mul_ediv_right a b (by norm_num)]

theorem emod12_add_mul (a b : ℤ) : (a + b * 12).emod 12 = a.emod 12 :=
  Int.add_mul_emod_self

theorem rollCutoffMs_eq (y mo d tod months : ℤ) :
    rollCutoffMs y mo d tod months =
      (daysFromCivil ((y * 12 + (mo - 1) - months).fdiv 12)
        ((y * 12 + (mo - 1) - months).emod 12 + 1) 1 + (d - 1)) * dayMs + tod := by
  simp only [rollCutoffMs]
  split
  · rw [daysFromCivil_day]
  · rw [daysFromCivil_day]
    ring

theorem setMonth_sub_eq_roll (ms months : ℤ) :
    jsSetMonth (.valid ms) (jsGetMonth0 (.valid ms) - months) =
      timeClip (rollCutoffMs (civilFromDays (ms.fdiv dayMs)).1
        (civilFromDays (ms.fdiv dayMs)).2.1 (civilFromDays (ms.fdiv dayMs)).2.2
        (ms - ms.fdiv dayMs * dayMs) months) := by
  simp only [jsSetMonth, jsGetMonth0]
  rw [rollCutoffMs_eq]
  congr 1
  have hM : (civilFromDays (ms.fdiv dayMs)).1 * 12 +
      ((civilFromDays (ms.fdiv dayMs)).2.1 - 1) - months =
      ((civilFromDays (ms.fdiv dayMs)).2.1 - 1 - months) +
        (civilFromDays (ms.fdiv dayMs)).1 * 12 := by
    ring
  rw [hM, fdiv12_add_mul, emod12_add_mul]
  ring_nf

/-- Counterexample data for C5: "now" is 2024-03-31T12:00Z; the series
holds one point at 2024-03-01T00:00Z.  Under the claimed clamping
semantics the 1M cutoff is 2024-02-29T12:00Z and the point is kept; the
code's `setMonth` rolls Feb 31 over to 2024-03-02T12:00Z and filters
the point out. -/
theorem C5_counterexample :
    jsDateOf (.str "2024-03-31T12:00:00Z") = .valid 1711886400000 ∧
    civilFromDays ((1711886400000 : ℤ).fdiv dayMs) = (2024, 3, 31) ∧
    dateGeB (.valid 1709251200000)
      (.valid (specClampCutoffMs 2024 3 31 43200000 1)) = true ∧
    DashboardUI.updateChartFilter [⟨.valid 1709251200000, .fin 1 0⟩] "1M"
      (.valid 1711886400000) = [] := by
  decide

/-- C5 (amended): `ALL` returns the series unmodified; `1M`, `6M`, and
`1Y` keep exactly the points at or after now minus 1, 6, or 12 calendar
months, where a day-of-month that does not exist in the target month
rolls forward into the following month by the excess days
(`setMonth` semantics) instead of clamping to the month's last day. -/
theorem C5_theorem (series : List Point) (ms : ℤ) (range : String) (months : ℤ)
    (hr : (range = "1M" ∧ months = 1) ∨ (range = "6M" ∧ months = 6) ∨
          (range = "1Y" ∧ months = 12)) :
    DashboardUI.updateChartFilter series "ALL" (.valid ms) = series ∧
    DashboardUI.updateChartFilter series range (.valid ms) =
      series.filter (fun p => dateGeB p.x (timeClip (rollCutoffMs
        (civilFromDays (ms.fdiv dayMs)).1 (civilFromDays (ms.fdiv dayMs)).2.1
        (civilFromDays (ms.fdiv dayMs)).2.2 (ms - ms.fdiv dayMs * dayMs) months))) := by
  constructor
  · simp [DashboardUI.updateChartFilter]
  · have hmr : DashboardUI.monthsOfRange range = months := by
      rcases hr with ⟨h1, h2⟩ | ⟨h1, h2⟩ | ⟨h1, h2⟩ <;> subst h1 <;> subst h2 <;> rfl
    have hne : (range != "ALL") = true := by
      rcases hr with ⟨h1, _⟩ | ⟨h1, _⟩ | ⟨h1, _⟩ <;> subst h1 <;> rfl
    simp only [DashboardUI.updateChartFilter, hne, if_true]
    rw [hmr, setMonth_sub_eq_roll]

/-- C5, witness: the amended window semantics at the `6M` tag. -/
theorem C5_witness :
    DashboardUI.updateChartFilter [Point.mk (.valid 0) (.fin 1 0)] "ALL" (.valid 1711886400000) =
      [Point.mk (.valid 0) (.fin 1 0)] ∧
    DashboardUI.updateChartFilter [Point.mk (.valid 0) (.fin 1 0)] "6M" (.valid 1711886400000) =
      [Point.mk (.valid 0) (.fin 1 0)].filter
        (fun p => dateGeB p.x (timeClip (rollCutoffMs
          (civilFromDays ((1711886400000 : ℤ).fdiv dayMs)).1
          (civilFromDays ((1711886400000 : ℤ).fdiv dayMs)).2.1
          (civilFromDays ((1711886400000 : ℤ).fdiv dayMs)).2.2
          (1711886400000 - (1711886400000 : ℤ).fdiv dayMs * dayMs) 6))) :=
  C5_theorem [Point.mk (.valid 0) (.fin 1 0)] 1711886400000 "6M" 6
    (Or.inr (Or.inl ⟨rfl, rfl⟩))
